import Mathlib

/-!
Verification development for the `legal_spider` crawler.

Source files embedded here (shallow embedding, Python → Lean):
  * `src/spider/utils.py`       — `normalize_url`, `extract_domain` (via a
    faithful model of CPython `urllib.parse.urlparse` / `urlunparse` core
    string algorithms, without the WHATWG control-character stripping,
    which is irrelevant to the properties proved here),
  * `src/spider/http_client.py` — `TokenBucket`, `DomainRateLimiter`,
    `HTTPClient._handle_status_code`, `HTTPClient._fetch_with_retry`,
    `HTTPClient.fetch`, `HTTPClient._create_response` (body cap),
  * `src/spider/safety.py`      — `RobotsChecker`, `AuthDetector`,
    `URLFilter`, `SafetyManager.pre_crawl_check`,
  * `src/spider/spider.py`      — `URLQueue`, `LegalSpider._crawl_single_page`
    and the main crawl loop.

Strings are modelled as `List Char`; wall-clock times, token counts and
delays as `ℚ`; network and parser effects as explicit oracle parameters.
-/

set_option autoImplicit false

namespace LegalSpider

/-! ## Strings as lists of characters -/

abbrev Str := List Char

/-- Model of Python `str.lower` restricted to ASCII case mapping
(the only case mapping these URLs exercise). -/
def lowerStr (s : Str) : Str := s.map Char.toLower

/-! ## Generic split helpers used to model `str.find` / `str.split` / `str.rfind` -/

/-- Split a string at the first occurrence of `c`
(model of `s.split(c, 1)` when `c` occurs): returns the parts before and
after that occurrence, or `none` when `c` does not occur. -/
def splitChar (c : Char) : Str → Option (Str × Str)
  | [] => none
  | x :: xs =>
    if x = c then some ([], xs)
    else match splitChar c xs with
      | some (a, b) => some (x :: a, b)
      | none => none

/-- Split a string at the last occurrence of `c`
(model of splitting at `s.rfind(c)`): returns the parts before and after
that occurrence, or `none` when `c` does not occur. -/
def splitLastChar (c : Char) : Str → Option (Str × Str)
  | [] => none
  | x :: xs =>
    match splitLastChar c xs with
    | some (a, b) => some (x :: a, b)
    | none => if x = c then some ([], xs) else none

/-! ## Model of `urllib.parse` (CPython) used by `src/spider/utils.py` -/

/-- Characters permitted in a URL scheme
(CPython `urllib.parse.scheme_chars`: ASCII letters, digits, `+`, `-`,
`.`), expressed on code points. -/
def isSchemeChar (c : Char) : Bool :=
  (97 ≤ c.toNat && c.toNat ≤ 122) || (65 ≤ c.toNat && c.toNat ≤ 90) ||
    (48 ≤ c.toNat && c.toNat ≤ 57) || c = '+' || c = '-' || c = '.'

/-- ASCII alphabetic test, model of `c.isascii() and c.isalpha()`. -/
def isAsciiAlpha (c : Char) : Bool :=
  (97 ≤ c.toNat && c.toNat ≤ 122) || (65 ≤ c.toNat && c.toNat ≤ 90)

/-- A candidate scheme (the part before the first `:`) is accepted when it
is nonempty, begins with an ASCII letter and contains only scheme
characters (CPython `urlsplit` scheme recognition). -/
def validScheme : Str → Bool
  | [] => false
  | c :: cs => isAsciiAlpha c && cs.all isSchemeChar

/-- Scheme extraction step of CPython `urlsplit`: if the part before the
first `:` is a valid scheme, return it lowercased together with the rest,
otherwise leave the URL untouched with an empty scheme. -/
def splitScheme (u : Str) : Str × Str :=
  match splitChar ':' u with
  | some (pre, rest) => if validScheme pre then (lowerStr pre, rest) else ([], u)
  | none => ([], u)

/-- Characters that terminate the network-location part
(CPython `_splitnetloc` delimiters). -/
def isNetlocDelim (c : Char) : Bool := c = '/' || c = '?' || c = '#'

/-- Netloc extraction step of CPython `urlsplit`: when the remainder starts
with `//`, the netloc is everything up to the next `/`, `?` or `#`. -/
def splitNetloc (u : Str) : Str × Str :=
  if u.take 2 = ['/', '/'] then
    ((u.drop 2).takeWhile (fun c => !isNetlocDelim c),
      (u.drop 2).dropWhile (fun c => !isNetlocDelim c))
  else ([], u)

/-- Fragment split of CPython `urlsplit`: `url.split('#', 1)` when a `#`
occurs, otherwise an empty fragment. -/
def splitFragment (u : Str) : Str × Str :=
  match splitChar '#' u with
  | some (a, b) => (a, b)
  | none => (u, [])

/-- Query split of CPython `urlsplit`: `url.split('?', 1)` when a `?`
occurs, otherwise an empty query. -/
def splitQuery (u : Str) : Str × Str :=
  match splitChar '?' u with
  | some (a, b) => (a, b)
  | none => (u, [])

/-- Parameter split of CPython `urlparse._splitparams`: the params are
everything after the first `;` that follows the last `/` (or the first `;`
anywhere when the path has no `/`). -/
def splitparams (u : Str) : Str × Str :=
  match splitLastChar '/' u with
  | some (a, b) =>
    match splitChar ';' b with
    | some (x, y) => (a ++ '/' :: x, y)
    | none => (u, [])
  | none =>
    match splitChar ';' u with
    | some (x, y) => (x, y)
    | none => (u, [])

/-- The six URL components produced by `urllib.parse.urlparse`. -/
structure URLComponents where
  scheme : Str
  netloc : Str
  path : Str
  params : Str
  query : Str
  fragment : Str
  deriving Repr, DecidableEq

/-- Schemes that use parameters (CPython `urllib.parse.uses_params`). -/
def usesParams : List Str :=
  ["", "ftp", "hdl", "prospero", "http", "imap", "https", "shttp", "rtsp",
    "rtsps", "rtspu", "sip", "sips", "mms", "sftp", "tel"].map String.toList

/-- Schemes that use a network location
(CPython `urllib.parse.uses_netloc`). -/
def usesNetloc : List Str :=
  ["", "ftp", "http", "gopher", "nntp", "telnet", "imap", "wais", "file",
    "mms", "https", "shttp", "snews", "prospero", "rtsp", "rtsps", "rtspu",
    "rsync", "svn", "svn+ssh", "sftp", "nfs", "git", "git+ssh", "ws",
    "wss"].map String.toList

/-- Model of `urllib.parse.urlparse` (with `allow_fragments=True`):
scheme, then netloc, then fragment, then query, and finally the params
split, which CPython performs only when the scheme uses parameters and the
path contains a `;`. -/
def urlparse (u : Str) : URLComponents :=
  let s1 := splitScheme u
  let s2 := splitNetloc s1.2
  let s3 := splitFragment s2.2
  let s4 := splitQuery s3.1
  let s5 :=
    if s1.1 ∈ usesParams ∧ ';' ∈ s4.1 then splitparams s4.1 else (s4.1, [])
  ⟨s1.1, s2.1, s5.1, s5.2, s4.2, s3.2⟩

/-- Model of `urllib.parse.urlunsplit` (CPython 3.11): the `//` part is
emitted when a netloc is present, or when the scheme uses a netloc and the
path does not already begin with `//`. -/
def urlunsplit (scheme netloc url query fragment : Str) : Str :=
  let url1 :=
    if netloc ≠ [] ∨ (scheme ≠ [] ∧ scheme ∈ usesNetloc ∧ url.take 2 ≠ ['/', '/']) then
      '/' :: '/' :: netloc ++ (if url ≠ [] ∧ url.head? ≠ some '/' then '/' :: url else url)
    else url
  let url2 := if scheme ≠ [] then scheme ++ ':' :: url1 else url1
  let url3 := if query ≠ [] then url2 ++ '?' :: query else url2
  if fragment ≠ [] then url3 ++ '#' :: fragment else url3

/-- Model of `urllib.parse.urlunparse`: re-attach the params to the path,
then unsplit. -/
def urlunparse (c : URLComponents) : Str :=
  urlunsplit c.scheme c.netloc
    (if c.params ≠ [] then c.path ++ ';' :: c.params else c.path) c.query c.fragment

/-- Component-level normalization performed by `normalize_url`
(`src/spider/utils.py` lines 147-165): lowercase scheme and netloc, default
an empty path to `/`, keep params and query, drop the fragment. -/
def normComp (c : URLComponents) : URLComponents :=
  ⟨lowerStr c.scheme, lowerStr c.netloc,
    (if c.path = [] then ['/'] else c.path), c.params, c.query, []⟩

/-- Model of `normalize_url` (`src/spider/utils.py`): parse, normalize the
components, unparse. (The Python `try/except` wrapper is dead code here
because the modelled parser is total.) -/
def normalizeUrl (u : Str) : Str := urlunparse (normComp (urlparse u))

/-- Model of `extract_domain` (`src/spider/utils.py` lines 130-135):
`urlparse(url).netloc.lower()`. -/
def extractDomain (u : Str) : Str := lowerStr (urlparse u).netloc

/-! ## String helpers for the safety gate (`in` substring test, `startswith`,
`pathlib.PurePosixPath.suffix`) -/

/-- Model of `str.startswith`: `leadsWith needle hay` holds when `hay`
begins with `needle`. -/
def leadsWith : Str → Str → Bool
  | [], _ => true
  | _ :: _, [] => false
  | n :: ns, h :: hs => n = h && leadsWith ns hs

/-- Model of the Python substring test `needle in hay`. -/
def hasSub (needle : Str) : Str → Bool
  | [] => leadsWith needle []
  | h :: hs => leadsWith needle (h :: hs) || hasSub needle hs

/-- Split a string on every occurrence of `c` (model of `str.split(c)`). -/
def splitAll (c : Char) : Str → List Str
  | [] => [[]]
  | x :: xs =>
    let r := splitAll c xs
    if x = c then [] :: r
    else match r with
      | h :: t => (x :: h) :: t
      | [] => [[x]]

/-- Model of `pathlib.PurePosixPath(path).name`: the last path component,
after collapsing empty segments and single dots. -/
def pathName (p : Str) : Str :=
  (((splitAll '/' p).filter (fun s => !(s.isEmpty || s == ['.']))).getLast?).getD []

/-- Model of `pathlib.PurePosixPath(path).suffix`: the part of the name
from its last dot on, provided that dot is neither the first nor the last
character of the name. -/
def fileSuffix (p : Str) : Str :=
  let nm := pathName p
  match splitLastChar '.' nm with
  | some (a, b) => if a ≠ [] ∧ b ≠ [] then '.' :: b else []
  | none => []

/-- Model of `get_file_extension` (`src/spider/utils.py` lines 239-245):
the lowercased suffix of the URL's path. -/
def getFileExtension (url : Str) : Str := lowerStr (fileSuffix (urlparse url).path)

/-- Model of `has_excluded_extension` (`src/spider/utils.py` lines
248-251). -/
def hasExcludedExtension (url : Str) (exts : List Str) : Bool :=
  (exts.map lowerStr).contains (getFileExtension url)

/-! ## Configuration surface consumed by the core (`src/spider/config.py`) -/

/-- The slice of `SpiderConfig` the crawl engine reads. -/
structure SpiderConfig where
  maxDepth : Nat
  maxPages : Nat
  maxRetries : Nat
  excludedExtensions : List Str
  excludedPaths : List Str
  respectRobotsTxt : Bool
  avoidAuthPages : Bool
  deriving Repr

/-- Default excluded extensions (`src/spider/config.py` lines 49-54). -/
def defaultExcludedExtensions : List Str :=
  [".pdf", ".zip", ".rar", ".tar", ".gz", ".exe", ".dmg", ".iso",
    ".jpg", ".jpeg", ".png", ".gif", ".bmp", ".svg", ".ico",
    ".mp3", ".mp4", ".avi", ".mov", ".wmv", ".flv",
    ".doc", ".docx", ".xls", ".xlsx", ".ppt", ".pptx"].map String.toList

/-- Default excluded path substrings (`src/spider/config.py` lines
56-63). -/
def defaultExcludedPaths : List Str :=
  ["/admin/", "/administrator/", "/webadmin/", "/siteadmin/",
    "/cpanel/", "/phpmyadmin/", "/wp-admin/", "/login/",
    "/auth/", "/authentication/", "/signin/", "/signup/",
    "/register/", "/account/", "/user/", "/member/",
    "/logout/", "/logoff/", "/delete/", "/remove/",
    "/api/", "/webhook/", "/callback/"].map String.toList

/-- Configuration with the file's default values for the fields the core
reads. -/
def defaultConfig : SpiderConfig :=
  { maxDepth := 2, maxPages := 100, maxRetries := 3,
    excludedExtensions := defaultExcludedExtensions,
    excludedPaths := defaultExcludedPaths,
    respectRobotsTxt := true, avoidAuthPages := true }

/-! ## Token bucket and rate limiter (`src/spider/http_client.py` 71-174)

Wall-clock instants, token counts and delays are rationals. Division by
zero (Python would raise `ZeroDivisionError` in `wait_time` when
`refill_rate = 0`) is the Lean total convention `x / 0 = 0`. -/

/-- State of `TokenBucket` (`src/spider/http_client.py` lines 71-122). -/
structure TokenBucket where
  capacity : ℚ
  tokens : ℚ
  refill_rate : ℚ
  last_refill : ℚ
  deriving Repr, DecidableEq

/-- A fresh bucket as built by `TokenBucket.__init__`: starts full. -/
def TokenBucket.init (capacity : ℚ) (refillRate : ℚ) (now : ℚ) : TokenBucket :=
  ⟨capacity, capacity, refillRate, now⟩

/-- The lazy refill performed at the top of `TokenBucket.consume`:
`tokens = min(capacity, tokens + elapsed * refill_rate)`. -/
def TokenBucket.refillAt (b : TokenBucket) (now : ℚ) : TokenBucket :=
  { b with tokens := min b.capacity (b.tokens + (now - b.last_refill) * b.refill_rate),
           last_refill := now }

/-- Model of `TokenBucket.consume` (lines 90-114): refill for the elapsed
time, then consume when enough tokens are available. -/
def TokenBucket.consume (b : TokenBucket) (now : ℚ) (need : ℚ) : Bool × TokenBucket :=
  let b2 := b.refillAt now
  if b2.tokens ≥ need then (true, { b2 with tokens := b2.tokens - need })
  else (false, b2)

/-- Model of `TokenBucket.wait_time` (lines 116-122); performs no
refill. -/
def TokenBucket.waitTime (b : TokenBucket) (need : ℚ) : ℚ :=
  if b.tokens ≥ need then 0 else (need - b.tokens) / b.refill_rate

/-- The consume-retry loop of `DomainRateLimiter.wait_if_needed` (lines
163-167), fuel-indexed because the Python `while` need not terminate.
`times i` is the clock reading at the i-th `consume` call; the returned
list holds the sleeps performed, each `min(wait_time, 1)`. -/
def waitLoop (times : Nat → ℚ) : Nat → Nat → TokenBucket → List ℚ × TokenBucket
  | 0, _, b => ([], b)
  | fuel + 1, i, b =>
    match b.consume (times i) 1 with
    | (true, b2) => ([], b2)
    | (false, b2) =>
      let w := min (b2.waitTime 1) 1
      let r := waitLoop times fuel (i + 1) b2
      (w :: r.1, r.2)

/-- Model of `DomainRateLimiter.wait_if_needed` (lines 148-167): a truthy
`custom_delay` (present and nonzero) sleeps exactly that long and bypasses
the bucket; otherwise the token-bucket loop runs. -/
def waitIfNeeded (customDelay : Option ℚ) (times : Nat → ℚ) (fuel : Nat)
    (b : TokenBucket) : List ℚ × TokenBucket :=
  match customDelay with
  | some d => if d ≠ 0 then ([d], b) else waitLoop times fuel 0 b
  | none => waitLoop times fuel 0 b

/-! ## HTTP fetch pipeline (`src/spider/http_client.py` 241-420) -/

/-- Model of `_calculate_retry_delay` (lines 390-394): exponential backoff
`2 ** attempt` plus a jitter drawn from `uniform(0, 1)`, passed in
explicitly. -/
def calculateRetryDelay (attempt : Nat) (jitter : ℚ) : ℚ :=
  2 ^ attempt + jitter

/-- Model of `HTTPClient._handle_status_code` (lines 356-394), returning
`(should_retry, delay)`. `retryAfter` is the parsed integer `Retry-After`
header, absent when the response has no such header. -/
def handleStatusCode (status : Nat) (retryAfter : Option ℤ) (attempt : Nat)
    (jitter : ℚ) : Bool × ℚ :=
  if status = 200 then (false, 0)
  else if status = 429 then (true, ((min (retryAfter.getD 60) 300 : ℤ) : ℚ))
  else if status = 500 ∨ status = 502 ∨ status = 503 ∨ status = 504 then
    (true, calculateRetryDelay attempt jitter)
  else if 400 ≤ status ∧ status < 500 then (false, 0)
  else (true, calculateRetryDelay attempt jitter)

/-- Transport-level failure kinds of one attempt, mirroring the `except`
arms of `_fetch_with_retry` (lines 323-339). -/
inductive TransportError where
  | timeout
  | connectionError
  | requestError
  | unexpected
  deriving Repr, DecidableEq

/-- What one attempt of `session.get` produced: a response with a status
code (and optional parsed `Retry-After`), or a raised exception. -/
inductive AttemptOutcome where
  | response (status : Nat) (retryAfter : Option ℤ)
  | exc (e : TransportError)
  deriving Repr, DecidableEq

/-- Result of `HTTPClient.fetch`: a returned response (success), a `None`
return, or a raised `HTTPError` carrying the last transport exception. -/
inductive FetchResult where
  | success (status : Nat)
  | noResult
  | httpError (last : TransportError)
  deriving Repr, DecidableEq

/-- End of the retry loop (lines 347-354): raise `HTTPError` when a
transport exception was recorded, otherwise return `None`. -/
def finishFetch : Option TransportError → FetchResult
  | some e => .httpError e
  | none => .noResult

/-- Model of the `for attempt in range(max_retries + 1)` body of
`_fetch_with_retry` (lines 292-345). The fuel is the number of remaining
iterations (`max_retries + 1 - attempt`); `outcomes` lists what each
successive attempt produces. A retryable response or transport exception
consumes exactly one attempt; `requests.RequestException` and unexpected
exceptions break out of the loop immediately. -/
def fetchGo : Nat → Nat → List AttemptOutcome → Option TransportError → FetchResult
  | 0, _, _, last => finishFetch last
  | _ + 1, _, [], last => finishFetch last
  | fuel + 1, attempt, o :: rest, last =>
    match o with
    | .response s ra =>
      if (handleStatusCode s ra attempt 0).1 then fetchGo fuel (attempt + 1) rest last
      else if s = 200 then .success s
      else .noResult
    | .exc .timeout => fetchGo fuel (attempt + 1) rest (some .timeout)
    | .exc .connectionError => fetchGo fuel (attempt + 1) rest (some .connectionError)
    | .exc .requestError => finishFetch (some .requestError)
    | .exc .unexpected => finishFetch (some .unexpected)

/-- Model of `_fetch_with_retry` (lines 284-354). -/
def fetchWithRetry (maxRetries : Nat) (outcomes : List AttemptOutcome) : FetchResult :=
  fetchGo (maxRetries + 1) 0 outcomes none

/-- Model of `HTTPClient.fetch` (lines 262-282): an URL with no
extractable domain returns `None` immediately; otherwise rate limiting is
applied (no effect on the result) and the retry loop runs. -/
def fetch (maxRetries : Nat) (u : Str) (outcomes : List AttemptOutcome) : FetchResult :=
  if extractDomain u = [] then .noResult
  else fetchWithRetry maxRetries outcomes

/-- The 50 MB body cap of `_create_response` (line 403). -/
def MAX_CONTENT_SIZE : Nat := 50 * 1024 * 1024

/-- UTF-8 encoded byte length of a string, model of
`len(content.encode('utf-8'))`. -/
def utf8Len (s : Str) : Nat := (s.map Char.utf8Size).sum

/-- Model of the body-capping step of `_create_response` (lines 396-410):
when the UTF-8 byte length exceeds the cap, the content is truncated to
`max_size` *characters* (`content[:max_size]` slices code points). -/
def capContent (content : Str) : Str :=
  if utf8Len content > MAX_CONTENT_SIZE then content.take MAX_CONTENT_SIZE else content

/-! ## Robots-exclusion checker (`src/spider/safety.py` 30-106) -/

/-- A cached, parsed robots.txt (`RobotFileParser`): rule evaluation
(`none` models `rp.can_fetch` raising) and the declared crawl delay. -/
structure RobotsRules where
  canFetchEval : Str → Option Bool
  crawlDelay : Option ℚ

/-- Mutable state of `RobotsChecker`: the per-domain cache and the
per-domain fetch-error set. -/
structure RobotsState where
  cache : List (Str × RobotsRules)
  fetchErrors : List Str

/-- Fresh `RobotsChecker` state. -/
def RobotsState.empty : RobotsState := ⟨[], []⟩

/-- Association-list lookup in the robots cache. -/
def findRules : List (Str × RobotsRules) → Str → Option RobotsRules
  | [], _ => none
  | (k, v) :: rest, d => if k = d then some v else findRules rest d

/-- Model of `RobotsChecker.can_fetch` (lines 41-78). `fetchOracle` is
what `_fetch_robots_txt` would produce for this domain: `some rules` on
success, `none` when the fetch or parse raises. -/
def canFetch (st : RobotsState) (fetchOracle : Option RobotsRules) (url : Str) :
    Bool × RobotsState :=
  let domain := extractDomain url
  if domain = [] then (false, st)
  else
    match findRules st.cache domain with
    | some rp =>
      match rp.canFetchEval url with
      | some b => (b, st)
      | none => (true, st)
    | none =>
      if domain ∈ st.fetchErrors then (true, st)
      else
        match fetchOracle with
        | some rp =>
          let st2 : RobotsState := { st with cache := (domain, rp) :: st.cache }
          match rp.canFetchEval url with
          | some b => (b, st2)
          | none => (true, st2)
        | none => (true, { st with fetchErrors := domain :: st.fetchErrors })

/-- Model of `RobotsChecker.get_crawl_delay` (lines 80-91): only a cached,
truthy (nonzero) crawl delay is reported. -/
def getCrawlDelay (st : RobotsState) (url : Str) : Option ℚ :=
  match findRules st.cache (extractDomain url) with
  | none => none
  | some rp =>
    match rp.crawlDelay with
    | some d => if d ≠ 0 then some d else none
    | none => none

/-! ## Auth detector and URL filter (`src/spider/safety.py` 109-302) -/

/-- The case-insensitive URL auth patterns of `AuthDetector` (lines
115-124); each regex `(?i).*/NAME.*` is equivalent to a case-insensitive
substring test for `/NAME`. -/
def authUrlNeedles : List Str :=
  ["/login", "/signin", "/logon", "/auth", "/authentication", "/session",
    "/logout", "/signout"].map String.toList

/-- The sensitive-path patterns of `AuthDetector` (lines 127-138). -/
def sensitivePathNeedles : List Str :=
  ["/admin", "/administrator", "/webadmin", "/siteadmin", "/cpanel",
    "/phpmyadmin", "/wp-admin", "/manage", "/control", "/dashboard"].map String.toList

/-- Model of `AuthDetector._check_url_patterns` (lines 181-187). -/
def checkUrlPatterns (url : Str) : Bool :=
  (authUrlNeedles ++ sensitivePathNeedles).any (fun p => hasSub p (lowerStr url))

/-- Model of `URLFilter._has_excluded_path` (lines 279-285). -/
def hasExcludedPath (cfg : SpiderConfig) (url : Str) : Bool :=
  cfg.excludedPaths.any (fun e => hasSub e (lowerStr (urlparse url).path))

/-- Model of `URLFilter.is_safe_url` (lines 243-277). -/
def isSafeUrl (cfg : SpiderConfig) (url : Str) : Bool :=
  (leadsWith "http://".toList url || leadsWith "https://".toList url) &&
  !hasExcludedExtension url cfg.excludedExtensions &&
  !hasExcludedPath cfg url &&
  url.length ≤ 2048

/-- Model of `URLFilter.should_crawl` (lines 287-302): depth bound first,
then the URL safety checks. -/
def shouldCrawl (cfg : SpiderConfig) (url : Str) (depth : Nat) : Bool :=
  if depth > cfg.maxDepth then false else isSafeUrl cfg url

/-! ## Safety manager (`src/spider/safety.py` 305-369) -/

/-- The block counters of `SafetyManager` (lines 318-324). -/
structure SafetyStats where
  urlsChecked : Nat
  urlsBlocked : Nat
  robotsBlocks : Nat
  authBlocks : Nat
  filterBlocks : Nat
  deriving Repr, DecidableEq

/-- All-zero safety counters. -/
def SafetyStats.zero : SafetyStats := ⟨0, 0, 0, 0, 0⟩

/-- Model of `SafetyManager.pre_crawl_check` (lines 326-369): URL filter,
then robots.txt (when enabled), then the URL-only auth check (when
enabled); the first failing check increments its dedicated counter plus
the aggregate `urls_blocked` and returns `False`. -/
def preCrawlCheck (cfg : SpiderConfig) (robotsSt : RobotsState)
    (robotsOracle : Option RobotsRules) (url : Str) (depth : Nat)
    (stats : SafetyStats) : Bool × SafetyStats × RobotsState :=
  let stats := { stats with urlsChecked := stats.urlsChecked + 1 }
  if shouldCrawl cfg url depth then
    let rc :=
      if cfg.respectRobotsTxt then canFetch robotsSt robotsOracle url
      else (true, robotsSt)
    if rc.1 then
      if cfg.avoidAuthPages && checkUrlPatterns url then
        (false, { stats with urlsBlocked := stats.urlsBlocked + 1,
                             authBlocks := stats.authBlocks + 1 }, rc.2)
      else (true, stats, rc.2)
    else
      (false, { stats with urlsBlocked := stats.urlsBlocked + 1,
                           robotsBlocks := stats.robotsBlocks + 1 }, rc.2)
  else
    (false, { stats with urlsBlocked := stats.urlsBlocked + 1,
                         filterBlocks := stats.filterBlocks + 1 }, robotsSt)

/-! ## URL frontier (`src/spider/spider.py` 31-121) -/

/-- Model of `URLItem` (lines 31-44): `discovered_at` is dropped (pure
timestamp metadata), `priority` is kept verbatim. -/
structure URLItem where
  url : Str
  depth : Nat
  parentUrl : Option Str
  priority : Int
  deriving Repr, DecidableEq

/-- Model of `URLQueue` (lines 47-121): the FIFO deque plus the `visited`
and `in_queue` sets (represented as lists without duplicates). -/
structure URLQueue where
  queue : List URLItem
  visited : List Str
  inQueue : List Str
  maxSize : Nat
  deriving Repr, DecidableEq

/-- Fresh `URLQueue`. -/
def emptyQueue (maxSize : Nat) : URLQueue := ⟨[], [], [], maxSize⟩

/-- Model of `URLQueue.add_url` (lines 59-94): normalize, reject
duplicates (already visited or queued) and overflow, otherwise append to
the deque and mark queued. -/
def URLQueue.addUrl (q : URLQueue) (url : Str) (depth : Nat)
    (parent : Option Str) (priority : Int) : Bool × URLQueue :=
  let n := normalizeUrl url
  if n ∈ q.visited ∨ n ∈ q.inQueue then (false, q)
  else if q.queue.length ≥ q.maxSize then (false, q)
  else
    (true, { q with queue := q.queue ++ [⟨n, depth, parent, priority⟩],
                    inQueue := n :: q.inQueue })

/-- Model of `URLQueue.get_next_url` (lines 96-105): pop the head of the
deque, move its URL from `in_queue` to `visited`. -/
def URLQueue.getNextUrl (q : URLQueue) : Option URLItem × URLQueue :=
  match q.queue with
  | [] => (none, q)
  | item :: rest =>
    (some item, { q with queue := rest, inQueue := q.inQueue.erase item.url,
                         visited := item.url :: q.visited })

/-- One client-visible frontier operation. -/
inductive QueueOp where
  | enq (url : Str) (depth : Nat) (parent : Option Str) (priority : Int)
  | deq
  deriving Repr, DecidableEq

/-- Apply one operation; dequeued items are appended to the output
trace. -/
def applyOp (s : URLQueue × List URLItem) : QueueOp → URLQueue × List URLItem
  | .enq u d p pr => ((s.1.addUrl u d p pr).2, s.2)
  | .deq =>
    let r := s.1.getNextUrl
    match r.1 with
    | some i => (r.2, s.2 ++ [i])
    | none => (r.2, s.2)

/-- Run a whole session of frontier operations from the empty queue,
collecting the dequeued items in order. -/
def runOps (maxSize : Nat) (ops : List QueueOp) : URLQueue × List URLItem :=
  ops.foldl applyOp (emptyQueue maxSize, [])

/-- Forget the priority field of an item (used to state that the stored
priority is inert metadata). -/
def stripPriority (i : URLItem) : Str × Nat × Option Str :=
  (i.url, i.depth, i.parentUrl)

/-- Overwrite the priority carried by an enqueue operation (used to state
that dequeue order does not depend on priorities). -/
def setPriority (pr : Int) : QueueOp → QueueOp
  | .enq u d p _ => .enq u d p pr
  | .deq => .deq

/-- Invariant tying the frontier's three structures and the dequeue trace
together: `in_queue` mirrors the URLs of the deque, both are
duplicate-free, `visited` is duplicate-free and disjoint from `in_queue`,
and the dequeued items list `visited` in order. -/
def frontierInv (s : URLQueue × List URLItem) : Prop :=
  s.1.inQueue = (s.1.queue.map URLItem.url).reverse ∧
  (s.1.queue.map URLItem.url).Nodup ∧
  s.1.visited.Nodup ∧
  (∀ u ∈ s.1.visited, u ∉ s.1.inQueue) ∧
  s.2.map URLItem.url = s.1.visited.reverse

/-! ## Orchestrator (`src/spider/spider.py` 124-273) -/

/-- The slice of `HTTPResponse` the orchestrator reads. -/
structure PageResponse where
  statusCode : Nat
  contentType : Str
  content : Str
  deriving Repr, DecidableEq

/-- Model of `HTTPResponse.is_html` (lines 53-57 of
`src/spider/http_client.py`): whether the lowercased content type contains
an HTML or XHTML marker. -/
def responseIsHtml (r : PageResponse) : Bool :=
  (["text/html", "html", "application/xhtml"].map String.toList).any
    (fun t => hasSub t (lowerStr r.contentType))

/-- Outcome of `http_client.fetch` as seen by `_crawl_single_page`:
a response, a `None` return, or a raised exception (caught by the crawl
loop's per-URL handler). -/
inductive PageFetch where
  | ok (r : PageResponse)
  | failed
  | raised
  deriving Repr

/-- One entry of `crawl_results` (lines 252-263 of
`src/spider/spider.py`), restricted to the fields the claims mention. -/
structure CrawlRecord where
  url : Str
  depth : Nat
  parentUrl : Option Str
  statusCode : Nat
  linksFound : Nat
  deriving Repr, DecidableEq

/-- External effects of one crawl iteration: the robots.txt fetch oracle,
the page fetch outcome, and the links the external HTML parser extracts
(already absolutized, same-domain filtered and normalized by
`_extract_links`). -/
structure PageOracle where
  robotsOracle : Option RobotsRules
  fetchResult : PageFetch
  links : List Str

/-- Mutable session state owned by `LegalSpider`. -/
structure CrawlState where
  urlQueue : URLQueue
  crawlResults : List CrawlRecord
  safetyStats : SafetyStats
  robotsState : RobotsState
  pagesCrawled : Nat
  pagesSkipped : Nat
  errorsEncountered : Nat

/-- Model of `LegalSpider._crawl_single_page` (lines 199-273) together
with the per-URL exception handler of the crawl loop (lines 175-179):
safety gate, fetch, HTML check, record the page, and enqueue each
extracted link at `depth + 1` when `depth < max_depth`. -/
def crawlSinglePage (cfg : SpiderConfig) (item : URLItem) (po : PageOracle)
    (st : CrawlState) : CrawlState :=
  let pc := preCrawlCheck cfg st.robotsState po.robotsOracle item.url item.depth st.safetyStats
  let st := { st with safetyStats := pc.2.1, robotsState := pc.2.2 }
  if pc.1 then
    match po.fetchResult with
    | .raised => { st with errorsEncountered := st.errorsEncountered + 1 }
    | .failed => { st with pagesSkipped := st.pagesSkipped + 1 }
    | .ok r =>
      if responseIsHtml r then
        let record : CrawlRecord :=
          ⟨item.url, item.depth, item.parentUrl, r.statusCode, po.links.length⟩
        let st := { st with pagesCrawled := st.pagesCrawled + 1,
                            crawlResults := st.crawlResults ++ [record] }
        let newQueue :=
          po.links.foldl
            (fun q link =>
              if item.depth < cfg.maxDepth then
                (q.addUrl link (item.depth + 1) (some item.url) (item.depth + 1 : Int)).2
              else q)
            st.urlQueue
        { st with urlQueue := newQueue }
      else { st with pagesSkipped := st.pagesSkipped + 1 }
  else { st with pagesSkipped := st.pagesSkipped + 1 }

/-- Model of the main crawl loop of `LegalSpider.crawl` (lines 169-179):
while the frontier is non-empty and fewer than `max_pages` pages have been
crawled, dequeue one item and process it. `oracles i` supplies the
external effects of iteration `i`; the fuel bounds the modelled
iterations. -/
def crawlLoop (cfg : SpiderConfig) (oracles : Nat → PageOracle) :
    Nat → Nat → CrawlState → CrawlState
  | 0, _, st => st
  | fuel + 1, i, st =>
    if st.urlQueue.queue.isEmpty || decide (st.pagesCrawled ≥ cfg.maxPages) then st
    else
      let r := st.urlQueue.getNextUrl
      match r.1 with
      | none => st
      | some item =>
        crawlLoop cfg oracles fuel (i + 1)
          (crawlSinglePage cfg item (oracles i) { st with urlQueue := r.2 })

/-- Session state right after `crawl` seeds the frontier with the start
URL (depth 0, priority 10) — `LegalSpider.__init__` plus line 166. -/
def initialCrawlState (cfg : SpiderConfig) (startUrl : Str) : CrawlState :=
  { urlQueue := ((emptyQueue (cfg.maxPages * 2)).addUrl startUrl 0 none 10).2,
    crawlResults := [], safetyStats := SafetyStats.zero,
    robotsState := RobotsState.empty, pagesCrawled := 0, pagesSkipped := 0,
    errorsEncountered := 0 }

/-- Model of `LegalSpider.crawl` (lines 155-197) up to report
generation. -/
def crawl (cfg : SpiderConfig) (startUrl : Str) (oracles : Nat → PageOracle)
    (fuel : Nat) : CrawlState :=
  crawlLoop cfg oracles fuel 0 (initialCrawlState cfg startUrl)

end LegalSpider

namespace LegalSpider

-- Sanity checks of the parser model on concrete URLs.
example :
    urlparse "http://Example.COM/A/b;p?q=1#frag".toList =
      ⟨"http".toList, "Example.COM".toList, "/A/b".toList, "p".toList,
        "q=1".toList, "frag".toList⟩ := by decide

example :
    normalizeUrl "HTTP://Example.COM#frag".toList = "http://example.com/".toList := by
  decide

example : normalizeUrl "a:b".toList = "a:b".toList := by decide

example : normalizeUrl "////x".toList = "//x".toList := by decide

example : normalizeUrl "//x".toList = "//x/".toList := by decide

example : normalizeUrl "http:;p".toList = "http:///;p".toList := by decide

example : normalizeUrl "http:///path".toList = "http:///path".toList := by decide

example : extractDomain "https://WWW.Site.org/x".toList = "www.site.org".toList := by
  decide

/-! ## C4: token bucket conservation and bounds -/

/-- C4: for every bucket, the refill performed on each consume computes
`tokens = min(capacity, tokens + elapsed * rate)`; consequently the token
count after any `consume` stays within `[0, capacity]`, and after `t`
seconds with no consumption a consume-time refill observes
`min(capacity, initial_tokens + t * rate)`. -/
theorem tokenBucket_conservation_bounds
    (b : TokenBucket) (t now need : ℚ)
    (hcap : 0 ≤ b.capacity) (htok0 : 0 ≤ b.tokens)
    (hrate : 0 ≤ b.refill_rate) (hnow : b.last_refill ≤ now) (hneed : 0 ≤ need) :
    (b.refillAt (b.last_refill + t)).tokens
        = min b.capacity (b.tokens + t * b.refill_rate) ∧
    0 ≤ ((b.consume now need).2).tokens ∧
    ((b.consume now need).2).tokens ≤ b.capacity := by
  have harith : b.last_refill + t - b.last_refill = t := by ring
  have hx0 : (0 : ℚ) ≤ min b.capacity (b.tokens + (now - b.last_refill) * b.refill_rate) :=
    le_min hcap (by nlinarith)
  have hxc : min b.capacity (b.tokens + (now - b.last_refill) * b.refill_rate) ≤ b.capacity :=
    min_le_left _ _
  refine ⟨by simp [TokenBucket.refillAt, harith], ?_, ?_⟩
  · unfold TokenBucket.consume TokenBucket.refillAt
    dsimp only
    split_ifs with h
    · dsimp only
      linarith
    · exact hx0
  · unfold TokenBucket.consume TokenBucket.refillAt
    dsimp only
    split_ifs with h
    · dsimp only
      linarith
    · exact hxc

/-- Witness for C4 at a concrete bucket. -/
theorem tokenBucket_conservation_bounds_witness :
    0 ≤ (((TokenBucket.mk 5 2 1 0).consume 1 1).2).tokens ∧
    (((TokenBucket.mk 5 2 1 0).consume 1 1).2).tokens ≤ (TokenBucket.mk 5 2 1 0).capacity :=
  ⟨(tokenBucket_conservation_bounds (TokenBucket.mk 5 2 1 0) 3 1 1
      (by decide) (by decide) (by decide) (by decide) (by decide)).2.1,
   (tokenBucket_conservation_bounds (TokenBucket.mk 5 2 1 0) 3 1 1
      (by decide) (by decide) (by decide) (by decide) (by decide)).2.2⟩

/-! ## C2: fetch status-code policy -/

/-- C2: `_handle_status_code` stops with success on 200; on 429 it takes
the parsed `Retry-After` (default 60 when absent), clamps it to at most
300 seconds, and retries, consuming one attempt exactly like any other
retry; 500/502/503/504 retry after `2 ^ attempt + jitter`; any other 4xx
stops as a permanent failure (no retry, callers return no result and raise
nothing); any other status retries with the same backoff. -/
theorem handleStatusCode_policy (status attempt : Nat) (ra : Option ℤ) (jitter : ℚ) :
    handleStatusCode 200 ra attempt jitter = (false, 0) ∧
    handleStatusCode 429 ra attempt jitter
        = (true, ((min (ra.getD 60) 300 : ℤ) : ℚ)) ∧
    handleStatusCode 429 none attempt jitter = (true, 60) ∧
    (handleStatusCode 429 ra attempt jitter).2 ≤ 300 ∧
    (status = 500 ∨ status = 502 ∨ status = 503 ∨ status = 504 →
      handleStatusCode status ra attempt jitter = (true, 2 ^ attempt + jitter)) ∧
    (400 ≤ status → status < 500 → status ≠ 429 →
      handleStatusCode status ra attempt jitter = (false, 0)) ∧
    (status ≠ 200 → ¬(400 ≤ status ∧ status < 500) →
      ¬(status = 500 ∨ status = 502 ∨ status = 503 ∨ status = 504) →
      handleStatusCode status ra attempt jitter = (true, 2 ^ attempt + jitter)) ∧
    (∀ fuel att rest last,
      fetchGo (fuel + 1) att (.response 429 ra :: rest) last = fetchGo fuel (att + 1) rest last) := by
  refine ⟨by simp [handleStatusCode], by simp [handleStatusCode], by simp [handleStatusCode],
    ?_, ?_, ?_, ?_, ?_⟩
  · simp only [handleStatusCode]
    norm_num
  · rintro (rfl | rfl | rfl | rfl) <;> simp [handleStatusCode, calculateRetryDelay]
  · intro h1 h2 h3
    have hs := Nat.lt_of_le_of_lt h1 h2
    simp only [handleStatusCode]
    rw [if_neg (by omega), if_neg h3, if_neg (by omega), if_pos ⟨h1, h2⟩]
  · intro h1 h2 h3
    simp only [handleStatusCode, calculateRetryDelay]
    rw [if_neg h1, if_neg (by omega), if_neg h3, if_neg h2]
  · intro fuel att rest last
    simp [fetchGo, handleStatusCode]

/-- Witness for C2, exercising the conditional branches at concrete
statuses. -/
theorem handleStatusCode_policy_witness :
    handleStatusCode 503 none 2 0 = (true, 2 ^ 2 + 0) ∧
    handleStatusCode 404 none 0 0 = (false, 0) ∧
    handleStatusCode 302 none 1 0 = (true, 2 ^ 1 + 0) :=
  ⟨(handleStatusCode_policy 503 2 none 0).2.2.2.2.1 (by decide),
   (handleStatusCode_policy 404 0 none 0).2.2.2.2.2.1 (by decide) (by decide) (by decide),
   (handleStatusCode_policy 302 1 none 0).2.2.2.2.2.2.1 (by decide) (by decide) (by decide)⟩

/-! ## C3: fetch failure semantics -/

/-- When every attempt raises a timeout or connection error and the
attempt budget is exactly exhausted, the retry loop surfaces the last
exception. -/
theorem fetchGo_all_exc (es : List TransportError) (att : Nat)
    (last : Option TransportError) (hne : es ≠ [])
    (hk : ∀ e ∈ es, e = .timeout ∨ e = .connectionError) :
    fetchGo es.length att (es.map AttemptOutcome.exc) last
      = .httpError (es.getLast hne) := by
  induction es generalizing att last with
  | nil => exact absurd rfl hne
  | cons e rest ih =>
    cases rest with
    | nil =>
      rcases hk e (by simp) with rfl | rfl <;>
        simp [fetchGo, finishFetch, List.getLast]
    | cons e2 rest2 =>
      have hk2 : ∀ x ∈ e2 :: rest2, x = .timeout ∨ x = .connectionError :=
        fun x hx => hk x (by simp [hx])
      have hlast : (e :: e2 :: rest2).getLast hne = (e2 :: rest2).getLast (by simp) :=
        List.getLast_cons _
      rcases hk e (by simp) with rfl | rfl <;>
        · simp only [List.length_cons, List.map_cons, fetchGo, hlast]
          exact ih (att + 1) _ (by simp) hk2

/-- When every attempt yields a response and none is a 200, the retry
loop returns no result (and never raises), for any fuel. -/
theorem fetchGo_responses_noResult (rs : List (Nat × Option ℤ)) (fuel att : Nat)
    (h200 : ∀ p ∈ rs, p.1 ≠ 200) :
    fetchGo fuel att (rs.map (fun p => AttemptOutcome.response p.1 p.2)) none
      = .noResult := by
  induction rs generalizing fuel att with
  | nil => cases fuel <;> simp [fetchGo, finishFetch]
  | cons p rest ih =>
    cases fuel with
    | zero => simp [fetchGo, finishFetch]
    | succ f =>
      simp only [List.map_cons, fetchGo]
      by_cases hb : (handleStatusCode p.1 p.2 att 0).1
      · rw [if_pos hb]
        exact ih f (att + 1) (fun q hq => h200 q (by simp [hq]))
      · rw [if_neg hb, if_neg (h200 p (by simp))]

/-- C3: `fetch` returns no result immediately and raises nothing when the
URL has no extractable domain; when all `max_retries + 1` attempts raise
transport exceptions it raises an HTTP error carrying the last exception;
when the attempts only produce non-200 responses it returns no result
rather than raising. -/
theorem fetch_failure_semantics (maxRetries : Nat) (u : Str)
    (outcomes : List AttemptOutcome) (es : List TransportError)
    (rs : List (Nat × Option ℤ)) :
    (extractDomain u = [] → fetch maxRetries u outcomes = .noResult) ∧
    (extractDomain u ≠ [] → ∀ hne : es ≠ [], es.length = maxRetries + 1 →
      (∀ e ∈ es, e = .timeout ∨ e = .connectionError) →
      fetch maxRetries u (es.map AttemptOutcome.exc) = .httpError (es.getLast hne)) ∧
    (extractDomain u ≠ [] → (∀ p ∈ rs, p.1 ≠ 200) →
      fetch maxRetries u (rs.map (fun p => AttemptOutcome.response p.1 p.2))
        = .noResult) := by
  refine ⟨fun h => by simp [fetch, h], ?_, ?_⟩
  · intro hd hne hlen hk
    rw [fetch, if_neg hd]
    unfold fetchWithRetry
    rw [← hlen]
    exact fetchGo_all_exc es 0 none hne hk
  · intro hd h200
    rw [fetch, if_neg hd]
    exact fetchGo_responses_noResult rs (maxRetries + 1) 0 h200

/-- Witness for C3 at concrete URLs and attempt traces. -/
theorem fetch_failure_semantics_witness :
    fetch 3 "notaurl".toList [] = .noResult ∧
    fetch 1 "http://a".toList
        ([TransportError.timeout, TransportError.connectionError].map AttemptOutcome.exc)
      = .httpError .connectionError ∧
    fetch 1 "http://a".toList
        ([((503 : Nat), (none : Option ℤ)), ((404 : Nat), (none : Option ℤ))].map
          (fun p => AttemptOutcome.response p.1 p.2)) = .noResult := by
  refine ⟨(fetch_failure_semantics 3 "notaurl".toList [] [] []).1 (by decide), ?_, ?_⟩
  · have h := (fetch_failure_semantics 1 "http://a".toList []
      [TransportError.timeout, TransportError.connectionError] []).2.1
      (by decide) (by simp) (by simp) (by decide)
    simpa using h
  · exact (fetch_failure_semantics 1 "http://a".toList []
      [] [((503 : Nat), (none : Option ℤ)), ((404 : Nat), (none : Option ℤ))]).2.2
      (by decide) (by decide)

/-! ## C10: zero-delay edge of the rate limiter and robots delay -/

set_option maxHeartbeats 1000000 in
/-- Every sleep the token-bucket wait loop performs is capped at one
second. -/
theorem waitLoop_sleep_le_one (times : Nat → ℚ) :
    ∀ fuel i b, ∀ w ∈ (waitLoop times fuel i b).1, w ≤ 1 := by
  intro fuel
  induction fuel with
  | zero => intro i b w hw; simp [waitLoop] at hw
  | succ f ih =>
    intro i b w hw
    rcases hc : b.consume (times i) 1 with ⟨ok, b2⟩
    cases ok
    · simp only [waitLoop, hc, List.mem_cons] at hw
      rcases hw with rfl | hw
      · exact min_le_right _ _
      · exact ih _ _ _ hw
    · simp [waitLoop, hc] at hw

/-- C10: `wait_if_needed` takes the custom-delay bypass (sleeping exactly
`custom_delay` and leaving the bucket untouched) only when `custom_delay`
is truthy; a zero or absent delay falls through to the token-bucket loop,
whose every sleep is capped at 1 second; and a robots.txt crawl-delay of 0
is reported by `get_crawl_delay` as absent. -/
theorem rateLimiter_zero_delay_edge (d : ℚ) (times : Nat → ℚ) (fuel : Nat)
    (b : TokenBucket) (st : RobotsState) (url : Str) (rp : RobotsRules) :
    (d ≠ 0 → waitIfNeeded (some d) times fuel b = ([d], b)) ∧
    waitIfNeeded (some 0) times fuel b = waitLoop times fuel 0 b ∧
    waitIfNeeded none times fuel b = waitLoop times fuel 0 b ∧
    (∀ w ∈ (waitIfNeeded (some 0) times fuel b).1, w ≤ 1) ∧
    (findRules st.cache (extractDomain url) = some rp → rp.crawlDelay = some 0 →
      getCrawlDelay st url = none) := by
  refine ⟨fun hd => by simp [waitIfNeeded, hd], by simp [waitIfNeeded], rfl, ?_, ?_⟩
  · intro w hw
    exact waitLoop_sleep_le_one times fuel 0 b w (by simpa [waitIfNeeded] using hw)
  · intro hfind hcd
    simp [getCrawlDelay, hfind, hcd]

/-- Witness for C10: a truthy delay of 5 bypasses the bucket; a cached
crawl-delay of 0 is reported as absent. -/
theorem rateLimiter_zero_delay_edge_witness :
    waitIfNeeded (some 5) (fun _ => 0) 3 (TokenBucket.mk 5 5 1 0)
      = ([5], TokenBucket.mk 5 5 1 0) ∧
    getCrawlDelay ⟨[("a".toList, ⟨fun _ => some true, some 0⟩)], []⟩
      "http://a/x".toList = none :=
  ⟨(rateLimiter_zero_delay_edge 5 (fun _ => 0) 3 (TokenBucket.mk 5 5 1 0)
      ⟨[], []⟩ [] ⟨fun _ => some true, none⟩).1 (by decide),
   (rateLimiter_zero_delay_edge 5 (fun _ => 0) 3 (TokenBucket.mk 5 5 1 0)
      ⟨[("a".toList, ⟨fun _ => some true, some 0⟩)], []⟩ "http://a/x".toList
      ⟨fun _ => some true, some 0⟩).2.2.2.2 rfl rfl⟩

/-! ## C7: robots fail-open -/

/-- C7: when fetching/parsing a domain's robots.txt fails, `can_fetch`
returns allowed and remembers the failure in the per-domain error set;
on later calls for that domain it returns allowed without re-attempting
the fetch (the result and state do not depend on the fetch oracle). -/
theorem robots_fail_open (st : RobotsState) (url : Str) (rules : Option RobotsRules) :
    (extractDomain url ≠ [] → findRules st.cache (extractDomain url) = none →
      extractDomain url ∉ st.fetchErrors →
      canFetch st none url
        = (true, { st with fetchErrors := extractDomain url :: st.fetchErrors })) ∧
    (extractDomain url ≠ [] → findRules st.cache (extractDomain url) = none →
      extractDomain url ∈ st.fetchErrors →
      canFetch st rules url = (true, st)) := by
  constructor
  · intro hd hfind hmem
    simp [canFetch, hd, hfind, hmem]
  · intro hd hfind hmem
    simp [canFetch, hd, hfind, hmem]

/-- Witness for C7: first call on a failing domain marks the error set;
the second call is allowed with unchanged state, whatever the oracle
would now return. -/
theorem robots_fail_open_witness :
    canFetch ⟨[], []⟩ none "http://a/x".toList = (true, ⟨[], ["a".toList]⟩) ∧
    canFetch ⟨[], ["a".toList]⟩ (some ⟨fun _ => some false, none⟩) "http://a/x".toList
      = (true, ⟨[], ["a".toList]⟩) :=
  ⟨(robots_fail_open ⟨[], []⟩ "http://a/x".toList none).1 (by decide) rfl (by decide),
   (robots_fail_open ⟨[], ["a".toList]⟩ "http://a/x".toList
      (some ⟨fun _ => some false, none⟩)).2 (by decide) rfl (by decide)⟩

/-! ## C9: the 50 MB response body cap -/

/-- The UTF-8 length of a replicated character. -/
theorem utf8Len_replicate (n : Nat) (c : Char) :
    utf8Len (List.replicate n c) = n * c.utf8Size := by
  simp [utf8Len, List.map_replicate, List.sum_replicate, smul_eq_mul]

/-- C9 (failing input): `_create_response` triggers truncation on the
UTF-8 *byte* length but slices `content[:max_size]` by *characters*, so a
body of `max_size + 1` two-byte characters is stored with
`2 * max_size` bytes — double the advertised 50 MB cap. -/
theorem capContent_exceeds_cap :
    utf8Len (capContent (List.replicate (MAX_CONTENT_SIZE + 1) '¢'))
      = 2 * MAX_CONTENT_SIZE ∧ MAX_CONTENT_SIZE < 2 * MAX_CONTENT_SIZE := by
  have hsz : Char.utf8Size '¢' = 2 := by decide
  have h1 : utf8Len (List.replicate (MAX_CONTENT_SIZE + 1) '¢')
      = (MAX_CONTENT_SIZE + 1) * 2 := by rw [utf8Len_replicate, hsz]
  have h2 : capContent (List.replicate (MAX_CONTENT_SIZE + 1) '¢')
      = List.replicate MAX_CONTENT_SIZE '¢' := by
    rw [capContent, if_pos (by rw [h1]; omega), List.take_replicate]
    congr 1
  refine ⟨?_, by unfold MAX_CONTENT_SIZE; omega⟩
  rw [h2, utf8Len_replicate, hsz]
  omega

/-! ## C5: safety gate composition -/

/-- C5: `pre_crawl_check` runs the URL filter, then the robots check,
then the auth check, in that order; the first failing check
short-circuits the rest (the result does not depend on the later checks,
and on the filter path not on the robots oracle at all), increments its
dedicated block counter plus the aggregate `urls_blocked`, and the check
returns blocked. -/
theorem preCrawl_gate_composition (cfg : SpiderConfig) (rst : RobotsState)
    (oracle : Option RobotsRules) (url : Str) (depth : Nat) (stats : SafetyStats)
    (hr : cfg.respectRobotsTxt = true) (ha : cfg.avoidAuthPages = true) :
    (shouldCrawl cfg url depth = false →
      preCrawlCheck cfg rst oracle url depth stats =
        (false, { stats with urlsChecked := stats.urlsChecked + 1,
                             urlsBlocked := stats.urlsBlocked + 1,
                             filterBlocks := stats.filterBlocks + 1 }, rst)) ∧
    (shouldCrawl cfg url depth = true → (canFetch rst oracle url).1 = false →
      preCrawlCheck cfg rst oracle url depth stats =
        (false, { stats with urlsChecked := stats.urlsChecked + 1,
                             urlsBlocked := stats.urlsBlocked + 1,
                             robotsBlocks := stats.robotsBlocks + 1 },
          (canFetch rst oracle url).2)) ∧
    (shouldCrawl cfg url depth = true → (canFetch rst oracle url).1 = true →
      checkUrlPatterns url = true →
      preCrawlCheck cfg rst oracle url depth stats =
        (false, { stats with urlsChecked := stats.urlsChecked + 1,
                             urlsBlocked := stats.urlsBlocked + 1,
                             authBlocks := stats.authBlocks + 1 },
          (canFetch rst oracle url).2)) ∧
    (shouldCrawl cfg url depth = true → (canFetch rst oracle url).1 = true →
      checkUrlPatterns url = false →
      preCrawlCheck cfg rst oracle url depth stats =
        (true, { stats with urlsChecked := stats.urlsChecked + 1 },
          (canFetch rst oracle url).2)) := by
  refine ⟨?_, ?_, ?_, ?_⟩
  · intro hf
    simp [preCrawlCheck, hf]
  · intro hf hrc
    simp [preCrawlCheck, hf, hr, hrc]
  · intro hf hrc hcp
    simp [preCrawlCheck, hf, hr, ha, hrc, hcp]
  · intro hf hrc hcp
    simp [preCrawlCheck, hf, hr, ha, hrc, hcp]

/-- Witness for C5 exercising all four gate outcomes. -/
theorem preCrawl_gate_composition_witness :
    preCrawlCheck defaultConfig RobotsState.empty none "ftp://x".toList 0
      SafetyStats.zero = (false, ⟨1, 1, 0, 0, 1⟩, RobotsState.empty) ∧
    preCrawlCheck defaultConfig ⟨[("a".toList, ⟨fun _ => some false, none⟩)], []⟩
      none "http://a/page".toList 0 SafetyStats.zero
      = (false, ⟨1, 1, 1, 0, 0⟩, ⟨[("a".toList, ⟨fun _ => some false, none⟩)], []⟩) ∧
    preCrawlCheck defaultConfig ⟨[("a".toList, ⟨fun _ => some true, none⟩)], []⟩
      none "http://a/login0".toList 0 SafetyStats.zero
      = (false, ⟨1, 1, 0, 1, 0⟩, ⟨[("a".toList, ⟨fun _ => some true, none⟩)], []⟩) ∧
    preCrawlCheck defaultConfig ⟨[("a".toList, ⟨fun _ => some true, none⟩)], []⟩
      none "http://a/page".toList 0 SafetyStats.zero
      = (true, ⟨1, 0, 0, 0, 0⟩, ⟨[("a".toList, ⟨fun _ => some true, none⟩)], []⟩) :=
  ⟨(preCrawl_gate_composition defaultConfig RobotsState.empty none "ftp://x".toList 0
      SafetyStats.zero rfl rfl).1 (by decide),
   (preCrawl_gate_composition defaultConfig
      ⟨[("a".toList, ⟨fun _ => some false, none⟩)], []⟩ none "http://a/page".toList 0
      SafetyStats.zero rfl rfl).2.1 (by decide) (by decide),
   (preCrawl_gate_composition defaultConfig
      ⟨[("a".toList, ⟨fun _ => some true, none⟩)], []⟩ none "http://a/login0".toList 0
      SafetyStats.zero rfl rfl).2.2.1 (by decide) (by decide) (by decide),
   (preCrawl_gate_composition defaultConfig
      ⟨[("a".toList, ⟨fun _ => some true, none⟩)], []⟩ none "http://a/page".toList 0
      SafetyStats.zero rfl rfl).2.2.2 (by decide) (by decide) (by decide)⟩

/-! ## C6: depth bound -/

/-- A passing `pre_crawl_check` implies the URL filter passed, hence the
depth bound held. -/
theorem preCrawlCheck_implies_shouldCrawl (cfg : SpiderConfig) (rst : RobotsState)
    (oracle : Option RobotsRules) (url : Str) (depth : Nat) (stats : SafetyStats)
    (h : (preCrawlCheck cfg rst oracle url depth stats).1 = true) :
    shouldCrawl cfg url depth = true := by
  by_cases hs : shouldCrawl cfg url depth = true
  · exact hs
  · have hs' : shouldCrawl cfg url depth = false := by
      cases hb : shouldCrawl cfg url depth
      · rfl
      · exact absurd hb hs
    simp [preCrawlCheck, hs'] at h

/-- Folding a function that never changes the accumulator leaves it
fixed. -/
theorem foldl_id {α β : Type} (l : List β) (q : α) :
    l.foldl (fun a _ => a) q = q := by
  induction l generalizing q with
  | nil => rfl
  | cons x xs ih => simp only [List.foldl_cons]; exact ih q

/-- A Boolean that is not true is false. -/
theorem bool_eq_false {b : Bool} (h : ¬ b = true) : b = false := by
  cases b
  · rfl
  · exact absurd rfl h

/-- A passing safety gate implies the dequeued item's depth is within the
bound. -/
theorem preCrawlCheck_depth_le (cfg : SpiderConfig) (rst : RobotsState)
    (oracle : Option RobotsRules) (url : Str) (depth : Nat) (stats : SafetyStats)
    (hpc : (preCrawlCheck cfg rst oracle url depth stats).1 = true) :
    depth ≤ cfg.maxDepth := by
  have hs := preCrawlCheck_implies_shouldCrawl cfg rst oracle url depth stats hpc
  by_contra hlt
  rw [shouldCrawl, if_pos (by omega)] at hs
  exact Bool.false_ne_true hs

/-- `_crawl_single_page` preserves the bound on record depths. -/
theorem crawlSinglePage_depth_bound (cfg : SpiderConfig) (item : URLItem)
    (po : PageOracle) (st : CrawlState)
    (hinv : ∀ r ∈ st.crawlResults, r.depth ≤ cfg.maxDepth) :
    ∀ r ∈ (crawlSinglePage cfg item po st).crawlResults, r.depth ≤ cfg.maxDepth := by
  intro r hr
  by_cases hpc : (preCrawlCheck cfg st.robotsState po.robotsOracle item.url
      item.depth st.safetyStats).1 = true
  · cases hfr : po.fetchResult with
    | raised =>
      simp only [crawlSinglePage, hpc, hfr, if_true] at hr
      exact hinv r hr
    | failed =>
      simp only [crawlSinglePage, hpc, hfr, if_true] at hr
      exact hinv r hr
    | ok resp =>
      by_cases hh : responseIsHtml resp = true
      · simp only [crawlSinglePage, hpc, hfr, hh, if_true, List.mem_append,
          List.mem_singleton] at hr
        rcases hr with hr | rfl
        · exact hinv r hr
        · exact preCrawlCheck_depth_le cfg st.robotsState po.robotsOracle item.url
            item.depth st.safetyStats hpc
      · simp only [crawlSinglePage, hpc, hfr, bool_eq_false hh, if_true,
          Bool.false_eq_true, if_false] at hr
        exact hinv r hr
  · simp only [crawlSinglePage, bool_eq_false hpc, Bool.false_eq_true, if_false] at hr
    exact hinv r hr

/-- The crawl loop preserves the bound on record depths. -/
theorem crawlLoop_depth_bound (cfg : SpiderConfig) (oracles : Nat → PageOracle) :
    ∀ fuel i st, (∀ r ∈ st.crawlResults, r.depth ≤ cfg.maxDepth) →
      ∀ r ∈ (crawlLoop cfg oracles fuel i st).crawlResults, r.depth ≤ cfg.maxDepth := by
  intro fuel
  induction fuel with
  | zero =>
    intro i st h r hr
    simp only [crawlLoop] at hr
    exact h r hr
  | succ f ih =>
    intro i st h r hr
    by_cases hstop : (st.urlQueue.queue.isEmpty
        || decide (st.pagesCrawled ≥ cfg.maxPages)) = true
    · simp only [crawlLoop, hstop, if_true] at hr
      exact h r hr
    · rcases hq : st.urlQueue.getNextUrl with ⟨oi, q2⟩
      cases oi with
      | none =>
        simp only [crawlLoop, bool_eq_false hstop, Bool.false_eq_true, if_false,
          hq] at hr
        exact h r hr
      | some item =>
        simp only [crawlLoop, bool_eq_false hstop, Bool.false_eq_true, if_false,
          hq] at hr
        refine ih (i + 1) _ ?_ r hr
        exact crawlSinglePage_depth_bound cfg item (oracles i)
          { st with urlQueue := q2 } h

/-- When the dequeued item already sits at the depth limit,
`_crawl_single_page` enqueues nothing. -/
theorem crawlSinglePage_no_enqueue (cfg : SpiderConfig) (item : URLItem)
    (po : PageOracle) (st : CrawlState) (h : cfg.maxDepth ≤ item.depth) :
    (crawlSinglePage cfg item po st).urlQueue = st.urlQueue := by
  have hcond : (item.depth < cfg.maxDepth) ↔ False := by
    constructor
    · omega
    · exact False.elim
  by_cases hpc : (preCrawlCheck cfg st.robotsState po.robotsOracle item.url
      item.depth st.safetyStats).1 = true
  · cases hfr : po.fetchResult with
    | raised => simp only [crawlSinglePage, hpc, hfr, if_true]
    | failed => simp only [crawlSinglePage, hpc, hfr, if_true]
    | ok resp =>
      by_cases hh : responseIsHtml resp = true
      · simp only [crawlSinglePage, hpc, hfr, hh, if_true, hcond, if_false]
        exact foldl_id po.links st.urlQueue
      · simp only [crawlSinglePage, hpc, hfr, bool_eq_false hh, if_true,
          Bool.false_eq_true, if_false]
  · simp only [crawlSinglePage, bool_eq_false hpc, Bool.false_eq_true, if_false]

/-- C6: no stored crawl record exceeds `max_depth`; a recorded page's
links are enqueued at `depth + 1` only when `depth + 1 ≤ max_depth`
(at the depth limit nothing is enqueued); and the URL filter rejects any
item whose depth exceeds `max_depth`. -/
theorem depth_bound (cfg : SpiderConfig) (startUrl : Str)
    (oracles : Nat → PageOracle) (fuel : Nat) (item : URLItem) (po : PageOracle)
    (st : CrawlState) (url : Str) (depth : Nat) (resp : PageResponse) :
    (∀ r ∈ (crawl cfg startUrl oracles fuel).crawlResults, r.depth ≤ cfg.maxDepth) ∧
    (cfg.maxDepth < item.depth + 1 →
      (crawlSinglePage cfg item po st).urlQueue = st.urlQueue) ∧
    ((preCrawlCheck cfg st.robotsState po.robotsOracle item.url item.depth
        st.safetyStats).1 = true →
      po.fetchResult = .ok resp → responseIsHtml resp = true →
      (crawlSinglePage cfg item po st).urlQueue =
        po.links.foldl
          (fun q link =>
            if item.depth < cfg.maxDepth then
              (q.addUrl link (item.depth + 1) (some item.url) (item.depth + 1 : Int)).2
            else q)
          st.urlQueue) ∧
    (cfg.maxDepth < depth → shouldCrawl cfg url depth = false) := by
  refine ⟨?_, ?_, ?_, ?_⟩
  · exact crawlLoop_depth_bound cfg oracles fuel 0 (initialCrawlState cfg startUrl)
      (by intro r hr; simp [initialCrawlState] at hr)
  · intro h
    exact crawlSinglePage_no_enqueue cfg item po st (by omega)
  · intro hpc hfr hh
    simp only [crawlSinglePage, hpc, hfr, hh, if_true]
  · intro h
    rw [shouldCrawl, if_pos (by omega)]

/-- Witness for C6 on a one-page crawl at `max_depth = 0`. -/
theorem depth_bound_witness :
    (crawlSinglePage { defaultConfig with maxDepth := 0 }
        ⟨"http://a/".toList, 5, none, 0⟩
        ⟨none, .ok ⟨200, "text/html".toList, []⟩, ["http://a/b".toList]⟩
        { initialCrawlState { defaultConfig with maxDepth := 0 } "http://a/".toList
            with urlQueue := emptyQueue 4 }).urlQueue = emptyQueue 4 ∧
    shouldCrawl { defaultConfig with maxDepth := 0 } "http://a/b".toList 1 = false :=
  ⟨(depth_bound { defaultConfig with maxDepth := 0 } "http://a/".toList
      (fun _ => ⟨none, .ok ⟨200, "text/html".toList, []⟩, []⟩) 0
      ⟨"http://a/".toList, 5, none, 0⟩
      ⟨none, .ok ⟨200, "text/html".toList, []⟩, ["http://a/b".toList]⟩
      { initialCrawlState { defaultConfig with maxDepth := 0 } "http://a/".toList
          with urlQueue := emptyQueue 4 }
      "http://a/b".toList 1 ⟨200, "text/html".toList, []⟩).2.1 (by decide),
   (depth_bound { defaultConfig with maxDepth := 0 } "http://a/".toList
      (fun _ => ⟨none, .ok ⟨200, "text/html".toList, []⟩, []⟩) 0
      ⟨"http://a/".toList, 5, none, 0⟩
      ⟨none, .ok ⟨200, "text/html".toList, []⟩, ["http://a/b".toList]⟩
      { initialCrawlState { defaultConfig with maxDepth := 0 } "http://a/".toList
          with urlQueue := emptyQueue 4 }
      "http://a/b".toList 1 ⟨200, "text/html".toList, []⟩).2.2.2 (by decide)⟩

/-! ## C1: frontier operation contract -/

/-- One frontier operation preserves the frontier invariant. -/
theorem applyOp_inv (s : URLQueue × List URLItem) (op : QueueOp)
    (hinv : frontierInv s) : frontierInv (applyOp s op) := by
  rcases s with ⟨q, out⟩
  obtain ⟨h1, h2, h3, h4, h5⟩ := hinv
  cases op with
  | enq u d p pr =>
    unfold applyOp URLQueue.addUrl
    dsimp only at h1 h2 h3 h4 h5 ⊢
    by_cases hdup : normalizeUrl u ∈ q.visited ∨ normalizeUrl u ∈ q.inQueue
    · simp only [if_pos hdup]
      exact ⟨h1, h2, h3, h4, h5⟩
    · simp only [if_neg hdup]
      by_cases hfull : q.queue.length ≥ q.maxSize
      · simp only [if_pos hfull]
        exact ⟨h1, h2, h3, h4, h5⟩
      · simp only [if_neg hfull]
        push_neg at hdup
        have hn : normalizeUrl u ∉ q.queue.map URLItem.url := by
          intro hmem
          exact hdup.2 (h1 ▸ List.mem_reverse.mpr hmem)
        refine ⟨?_, ?_, h3, ?_, h5⟩
        · dsimp only
          simp [h1]
        · dsimp only
          simp only [List.map_append, List.map_cons, List.map_nil]
          rw [List.nodup_append]
          refine ⟨h2, List.nodup_singleton _, ?_⟩
          intro x hx hx1
          simp only [List.mem_singleton] at hx1
          subst hx1
          exact hn hx
        · dsimp only
          intro x hx
          simp only [List.mem_cons, not_or]
          exact ⟨fun hxe => hdup.1 (hxe ▸ hx), h4 x hx⟩
  | deq =>
    unfold applyOp URLQueue.getNextUrl
    rcases hq : q.queue with _ | ⟨item, rest⟩
    · simp only [hq]
      exact ⟨h1, h2, h3, h4, h5⟩
    · rw [hq] at h1 h2
      simp only [List.map_cons, List.reverse_cons] at h1
      simp only [List.map_cons, List.nodup_cons] at h2
      obtain ⟨hhead, h2'⟩ := h2
      have hiq : item.url ∈ q.inQueue := by
        rw [h1]
        simp
      have hvis : item.url ∉ q.visited := fun hv => h4 item.url hv hiq
      have herase : q.inQueue.erase item.url = (rest.map URLItem.url).reverse := by
        rw [h1, List.erase_append_right _
          (by simp only [List.mem_reverse]; exact hhead), List.erase_cons_head,
          List.append_nil]
      simp only [hq]
      refine ⟨?_, h2', ?_, ?_, ?_⟩
      · dsimp only
        exact herase
      · dsimp only
        exact List.Nodup.cons hvis h3
      · dsimp only
        intro x hx
        rw [herase]
        rcases List.mem_cons.mp hx with rfl | hx
        · intro hmem
          exact hhead (List.mem_reverse.mp hmem)
        · intro hmem
          exact h4 x hx (by rw [h1]; exact List.mem_append_left _ hmem)
      · dsimp only
        simp [h5]

/-- The frontier invariant holds after any session of operations. -/
theorem runOps_inv (maxSize : Nat) (ops : List QueueOp) :
    frontierInv (runOps maxSize ops) := by
  have hfold : ∀ (l : List QueueOp) (s : URLQueue × List URLItem),
      frontierInv s → frontierInv (l.foldl applyOp s) := by
    intro l
    induction l with
    | nil => intro s h; exact h
    | cons op rest ih => intro s h; exact ih _ (applyOp_inv s op h)
  refine hfold ops (emptyQueue maxSize, []) ?_
  refine ⟨rfl, List.nodup_nil, List.nodup_nil, ?_, rfl⟩
  intro u hu
  cases hu

/-- A dequeue hands out the head of the deque: the combined
dequeued-then-pending sequence is unchanged. -/
theorem applyOp_deq_fifo (s : URLQueue × List URLItem) :
    (applyOp s .deq).2 ++ (applyOp s .deq).1.queue = s.2 ++ s.1.queue := by
  rcases s with ⟨q, out⟩
  unfold applyOp URLQueue.getNextUrl
  rcases hq : q.queue with _ | ⟨item, rest⟩
  · simp [hq]
  · simp [hq]

/-- An enqueue either leaves the combined dequeued-then-pending sequence
unchanged (duplicate or overflow) or appends the new item at its end. -/
theorem applyOp_enq_fifo (s : URLQueue × List URLItem) (u : Str) (d : Nat)
    (p : Option Str) (pr : Int) :
    (applyOp s (.enq u d p pr)).2 ++ (applyOp s (.enq u d p pr)).1.queue
        = s.2 ++ s.1.queue ∨
    (applyOp s (.enq u d p pr)).2 ++ (applyOp s (.enq u d p pr)).1.queue
        = s.2 ++ s.1.queue ++ [⟨normalizeUrl u, d, p, pr⟩] := by
  rcases s with ⟨q, out⟩
  unfold applyOp URLQueue.addUrl
  by_cases hdup : normalizeUrl u ∈ q.visited ∨ normalizeUrl u ∈ q.inQueue
  · left
    simp [hdup]
  · by_cases hfull : q.queue.length ≥ q.maxSize
    · left
      simp [hdup, hfull]
    · right
      simp [hdup, hfull]

/-- Sessions whose operations agree up to priorities produce the same
dequeue order (priorities stripped). -/
theorem foldl_priority_irrelevant :
    ∀ (ops1 ops2 : List QueueOp), ops1.map (setPriority 0) = ops2.map (setPriority 0) →
    ∀ (s1 s2 : URLQueue × List URLItem),
      s1.1.queue.map stripPriority = s2.1.queue.map stripPriority →
      s1.1.visited = s2.1.visited → s1.1.inQueue = s2.1.inQueue →
      s1.1.maxSize = s2.1.maxSize →
      s1.2.map stripPriority = s2.2.map stripPriority →
      ((ops1.foldl applyOp s1).2).map stripPriority
        = ((ops2.foldl applyOp s2).2).map stripPriority := by
  intro ops1
  induction ops1 with
  | nil =>
    intro ops2 hmap s1 s2 hq hv hi hm ho
    cases ops2 with
    | nil => exact ho
    | cons o t => exact absurd hmap (by simp)
  | cons op1 t1 ih =>
    intro ops2 hmap s1 s2 hq hv hi hm ho
    cases ops2 with
    | nil => exact absurd hmap (by simp)
    | cons op2 t2 =>
      simp only [List.map_cons, List.cons.injEq] at hmap
      obtain ⟨hop, ht⟩ := hmap
      rcases s1 with ⟨q1, out1⟩
      rcases s2 with ⟨q2, out2⟩
      dsimp only at hq hv hi hm ho
      cases op1 with
      | deq =>
        cases op2 with
        | enq u2 d2 p2 pr2 => simp [setPriority] at hop
        | deq =>
          simp only [List.foldl_cons]
          rcases hq1 : q1.queue with _ | ⟨i1, r1⟩ <;>
            rcases hq2 : q2.queue with _ | ⟨i2, r2⟩
          · exact ih t2 ht _ _ (by simp [applyOp, URLQueue.getNextUrl, hq1, hq2, hq])
              (by simp [applyOp, URLQueue.getNextUrl, hq1, hq2, hv])
              (by simp [applyOp, URLQueue.getNextUrl, hq1, hq2, hi])
              (by simp [applyOp, URLQueue.getNextUrl, hq1, hq2, hm])
              (by simp [applyOp, URLQueue.getNextUrl, hq1, hq2, ho])
          · rw [hq1, hq2] at hq
            exact absurd hq (by simp)
          · rw [hq1, hq2] at hq
            exact absurd hq (by simp)
          · rw [hq1, hq2] at hq
            simp only [List.map_cons, List.cons.injEq] at hq
            obtain ⟨hitem, hrest⟩ := hq
            have hurl : i1.url = i2.url := congrArg (fun t => t.1) hitem
            refine ih t2 ht _ _ ?_ ?_ ?_ ?_ ?_ <;>
              simp only [applyOp, URLQueue.getNextUrl, hq1, hq2]
            · exact hrest
            · simp [hv, hurl]
            · simp [hi, hurl]
            · simp [hm]
            · simp [ho, hitem]
      | enq u1 d1 p1 pr1 =>
        cases op2 with
        | deq => simp [setPriority] at hop
        | enq u2 d2 p2 pr2 =>
          simp only [setPriority, QueueOp.enq.injEq] at hop
          obtain ⟨rfl, rfl, rfl, -⟩ := hop
          simp only [List.foldl_cons]
          have hlen : q1.queue.length = q2.queue.length := by
            have := congrArg List.length hq
            simpa using this
          have hstep :
              ((applyOp (q1, out1) (.enq u1 d1 p1 pr1)).1.queue.map stripPriority
                 = (applyOp (q2, out2) (.enq u1 d1 p1 pr2)).1.queue.map stripPriority) ∧
              (applyOp (q1, out1) (.enq u1 d1 p1 pr1)).1.visited
                 = (applyOp (q2, out2) (.enq u1 d1 p1 pr2)).1.visited ∧
              (applyOp (q1, out1) (.enq u1 d1 p1 pr1)).1.inQueue
                 = (applyOp (q2, out2) (.enq u1 d1 p1 pr2)).1.inQueue ∧
              (applyOp (q1, out1) (.enq u1 d1 p1 pr1)).1.maxSize
                 = (applyOp (q2, out2) (.enq u1 d1 p1 pr2)).1.maxSize ∧
              ((applyOp (q1, out1) (.enq u1 d1 p1 pr1)).2.map stripPriority
                 = (applyOp (q2, out2) (.enq u1 d1 p1 pr2)).2.map stripPriority) := by
            unfold applyOp URLQueue.addUrl
            dsimp only
            by_cases hdup : normalizeUrl u1 ∈ q1.visited ∨ normalizeUrl u1 ∈ q1.inQueue
            · have hdup2 : normalizeUrl u1 ∈ q2.visited ∨ normalizeUrl u1 ∈ q2.inQueue := by
                rwa [hv, hi] at hdup
              rw [if_pos hdup, if_pos hdup2]
              exact ⟨hq, hv, hi, hm, ho⟩
            · have hdup2 : ¬(normalizeUrl u1 ∈ q2.visited ∨ normalizeUrl u1 ∈ q2.inQueue) := by
                rwa [hv, hi] at hdup
              rw [if_neg hdup, if_neg hdup2]
              by_cases hfull : q1.queue.length ≥ q1.maxSize
              · have hfull2 : q2.queue.length ≥ q2.maxSize := by
                  rwa [hlen, hm] at hfull
                rw [if_pos hfull, if_pos hfull2]
                exact ⟨hq, hv, hi, hm, ho⟩
              · have hfull2 : ¬ q2.queue.length ≥ q2.maxSize := by
                  rwa [hlen, hm] at hfull
                rw [if_neg hfull, if_neg hfull2]
                refine ⟨?_, hv, by rw [hi], hm, ho⟩
                simp [hq, stripPriority]
          exact ih t2 ht _ _ hstep.1 hstep.2.1 hstep.2.2.1 hstep.2.2.2.1 hstep.2.2.2.2

/-- C1: over any session of enqueue/dequeue operations the `queued` and
`visited` sets stay disjoint; enqueuing a URL whose normalized form is
already queued or visited returns `False` and leaves the frontier
unchanged; each normalized URL is dequeued at most once per session;
dequeue follows strict enqueue (FIFO) order — a dequeue pops the head of
the pending sequence without reordering it and an enqueue can only append
to its end — and the stored priority field never affects that order. -/
theorem frontier_contract (maxSize : Nat) (ops ops2 : List QueueOp)
    (s : URLQueue × List URLItem) (q : URLQueue) (u : Str) (d : Nat)
    (p : Option Str) (pr : Int) :
    (∀ x ∈ (runOps maxSize ops).1.visited, x ∉ (runOps maxSize ops).1.inQueue) ∧
    (normalizeUrl u ∈ q.visited ∨ normalizeUrl u ∈ q.inQueue →
      q.addUrl u d p pr = (false, q)) ∧
    ((runOps maxSize ops).2.map URLItem.url).Nodup ∧
    ((applyOp s .deq).2 ++ (applyOp s .deq).1.queue = s.2 ++ s.1.queue) ∧
    ((applyOp s (.enq u d p pr)).2 ++ (applyOp s (.enq u d p pr)).1.queue
        = s.2 ++ s.1.queue ∨
      (applyOp s (.enq u d p pr)).2 ++ (applyOp s (.enq u d p pr)).1.queue
        = s.2 ++ s.1.queue ++ [⟨normalizeUrl u, d, p, pr⟩]) ∧
    (ops.map (setPriority 0) = ops2.map (setPriority 0) →
      ((runOps maxSize ops).2).map stripPriority
        = ((runOps maxSize ops2).2).map stripPriority) := by
  obtain ⟨h1, h2, h3, h4, h5⟩ := runOps_inv maxSize ops
  refine ⟨h4, ?_, ?_, applyOp_deq_fifo s, applyOp_enq_fifo s u d p pr, ?_⟩
  · intro hdup
    unfold URLQueue.addUrl
    rw [if_pos hdup]
  · rw [h5]
    exact List.nodup_reverse.mpr h3
  · intro hpr
    exact foldl_priority_irrelevant ops ops2 hpr _ _ rfl rfl rfl rfl rfl

/-- Witness for C1: a duplicate enqueue is rejected without mutation, and
two sessions differing only in priorities dequeue the same URLs in the
same order. -/
theorem frontier_contract_witness :
    (URLQueue.mk [] ["http://a/".toList] [] 10).addUrl "http://a/".toList 1 none 5
      = (false, URLQueue.mk [] ["http://a/".toList] [] 10) ∧
    ((runOps 10 [.enq "http://a/x".toList 0 none 3, .deq]).2).map stripPriority
      = ((runOps 10 [.enq "http://a/x".toList 0 none 9, .deq]).2).map stripPriority :=
  ⟨(frontier_contract 10 [] [] (emptyQueue 10, [])
      (URLQueue.mk [] ["http://a/".toList] [] 10) "http://a/".toList 1 none 5).2.1
      (by decide),
   (frontier_contract 10 [.enq "http://a/x".toList 0 none 3, .deq]
      [.enq "http://a/x".toList 0 none 9, .deq] (emptyQueue 10, [])
      (emptyQueue 10) "x".toList 0 none 0).2.2.2.2.2 (by decide)⟩

/-! ## C8: idempotence of URL normalization

The claim as stated is false: when a parsed URL has an empty netloc and a
path beginning with `//`, `urlunparse` emits the path bare, and re-parsing
swallows the leading path segment as a netloc. `////x` normalizes to
`//x`, which normalizes to `//x/`. The amended claim — idempotence for
every URL outside that corner — is proved below. -/

/-- C8 (counterexample): normalization is not idempotent on `////x`. -/
theorem normalizeUrl_not_idempotent :
    normalizeUrl (normalizeUrl "////x".toList) ≠ normalizeUrl "////x".toList := by
  decide

/-! ### Character-level lemmas about ASCII lowercasing -/

/-- Unfolding `Char.ofNat` at a valid code point. -/
theorem char_toNat_ofNat {n : Nat} (h : n.isValidChar) : (Char.ofNat n).toNat = n := by
  rw [Char.ofNat, dif_pos h]
  rfl

/-- `toLower` fixes anything outside the upper-case ASCII range. -/
theorem toLower_eq_self {x : Char} (h : ¬(65 ≤ x.toNat ∧ x.toNat ≤ 90)) :
    x.toLower = x := by
  rw [Char.toLower, if_neg h]

/-- `toLower` shifts an upper-case ASCII letter down by 32. -/
theorem toLower_toNat_of_upper {x : Char} (h : 65 ≤ x.toNat ∧ x.toNat ≤ 90) :
    x.toLower.toNat = x.toNat + 32 := by
  rw [Char.toLower, if_pos h]
  exact char_toNat_ofNat (Or.inl (by omega))

/-- ASCII lowercasing is idempotent. -/
theorem toLower_toLower (x : Char) : x.toLower.toLower = x.toLower := by
  by_cases h : 65 ≤ x.toNat ∧ x.toNat ≤ 90
  · have h1 := toLower_toNat_of_upper h
    exact toLower_eq_self (by omega)
  · rw [toLower_eq_self h, toLower_eq_self h]

/-- For a target below code point 65 (all URL delimiters), lowercasing a
character hits the target exactly when the character is the target. -/
theorem toLower_eq_small {s : Char} (hs : s.toNat < 65) (x : Char) :
    x.toLower = s ↔ x = s := by
  constructor
  · intro h
    by_cases hx : 65 ≤ x.toNat ∧ x.toNat ≤ 90
    · have h1 := toLower_toNat_of_upper hx
      rw [h] at h1
      omega
    · rwa [toLower_eq_self hx] at h
  · intro h
    subst h
    exact toLower_eq_self (by omega)

/-- `lowerStr` is idempotent. -/
theorem lowerStr_idem (s : Str) : lowerStr (lowerStr s) = lowerStr s := by
  unfold lowerStr
  rw [List.map_map]
  exact List.map_congr_left (fun x _ => toLower_toLower x)

/-- Membership of a small (delimiter) character is invariant under
lowercasing. -/
theorem mem_lowerStr_small {s : Char} (hs : s.toNat < 65) (l : Str) :
    s ∈ lowerStr l ↔ s ∈ l := by
  unfold lowerStr
  rw [List.mem_map]
  constructor
  · rintro ⟨x, hx, hlx⟩
    rwa [(toLower_eq_small hs x).mp hlx] at hx
  · intro h
    exact ⟨s, h, toLower_eq_self (by omega)⟩

/-- Scheme membership in propositional form. -/
theorem isSchemeChar_iff (c : Char) :
    isSchemeChar c = true ↔ (97 ≤ c.toNat ∧ c.toNat ≤ 122) ∨
      (65 ≤ c.toNat ∧ c.toNat ≤ 90) ∨ (48 ≤ c.toNat ∧ c.toNat ≤ 57) ∨
      c = '+' ∨ c = '-' ∨ c = '.' := by
  simp [isSchemeChar, Bool.or_eq_true, Bool.and_eq_true, decide_eq_true_eq, or_assoc]

/-- ASCII-alphabetic membership in propositional form. -/
theorem isAsciiAlpha_iff (c : Char) :
    isAsciiAlpha c = true ↔ (97 ≤ c.toNat ∧ c.toNat ≤ 122) ∨
      (65 ≤ c.toNat ∧ c.toNat ≤ 90) := by
  simp [isAsciiAlpha, Bool.or_eq_true, Bool.and_eq_true, decide_eq_true_eq]

/-- Scheme characters survive lowercasing. -/
theorem isSchemeChar_toLower {x : Char} (h : isSchemeChar x = true) :
    isSchemeChar x.toLower = true := by
  rw [isSchemeChar_iff] at h ⊢
  by_cases hx : 65 ≤ x.toNat ∧ x.toNat ≤ 90
  · have h1 := toLower_toNat_of_upper hx
    exact Or.inl (by omega)
  · rw [toLower_eq_self hx]
    exact h

/-- ASCII letters survive lowercasing. -/
theorem isAsciiAlpha_toLower {x : Char} (h : isAsciiAlpha x = true) :
    isAsciiAlpha x.toLower = true := by
  rw [isAsciiAlpha_iff] at h ⊢
  by_cases hx : 65 ≤ x.toNat ∧ x.toNat ≤ 90
  · have h1 := toLower_toNat_of_upper hx
    exact Or.inl (by omega)
  · rw [toLower_eq_self hx]
    exact h

/-- A scheme character is none of the URL delimiters. -/
theorem isSchemeChar_not_delim {x : Char} (h : isSchemeChar x = true) :
    x ≠ ':' ∧ x ≠ '/' ∧ x ≠ '?' ∧ x ≠ '#' ∧ x ≠ ';' := by
  rw [isSchemeChar_iff] at h
  refine ⟨?_, ?_, ?_, ?_, ?_⟩ <;> rintro rfl <;>
    rcases h with h | h | h | h | h | h <;> simp_all

/-! ### Specifications of the split helpers -/

/-- A successful first-occurrence split decomposes the string. -/
theorem splitChar_eq_some {c : Char} :
    ∀ {l a b : Str}, splitChar c l = some (a, b) → l = a ++ c :: b ∧ c ∉ a := by
  intro l
  induction l with
  | nil => intro a b h; simp [splitChar] at h
  | cons x xs ih =>
    intro a b h
    by_cases hx : x = c
    · subst hx
      simp only [splitChar, if_pos rfl, Option.some.injEq, Prod.mk.injEq] at h
      obtain ⟨rfl, rfl⟩ := h
      simp
    · simp only [splitChar, if_neg hx] at h
      cases hs : splitChar c xs with
      | none => rw [hs] at h; simp at h
      | some p =>
        rcases p with ⟨a', b'⟩
        rw [hs] at h
        simp only [Option.some.injEq, Prod.mk.injEq] at h
        obtain ⟨h1, h2⟩ := h
        subst h1
        subst h2
        obtain ⟨hxs, hna⟩ := ih hs
        refine ⟨by rw [hxs]; rfl, ?_⟩
        simp only [List.mem_cons, not_or]
        exact ⟨fun hc => hx hc.symm, hna⟩

/-- A failed first-occurrence split means the character is absent. -/
theorem splitChar_eq_none {c : Char} :
    ∀ {l : Str}, splitChar c l = none → c ∉ l := by
  intro l
  induction l with
  | nil => intro _; simp
  | cons x xs ih =>
    intro h
    by_cases hx : x = c
    · subst hx
      simp [splitChar] at h
    · simp only [splitChar, if_neg hx] at h
      cases hs : splitChar c xs with
      | none =>
        simp only [List.mem_cons, not_or]
        exact ⟨fun hc => hx hc.symm, ih hs⟩
      | some p => rw [hs] at h; simp at h

/-- Splitting at an explicitly placed first occurrence. -/
theorem splitChar_append {c : Char} {a : Str} (b : Str) (h : c ∉ a) :
    splitChar c (a ++ c :: b) = some (a, b) := by
  induction a with
  | nil => simp [splitChar]
  | cons x xs ih =>
    simp only [List.mem_cons, not_or] at h
    have hxc : ¬ x = c := fun hxc => h.1 hxc.symm
    simp only [List.cons_append, splitChar, List.append_eq, if_neg hxc, ih h.2]

/-- Splitting when the character is absent. -/
theorem splitChar_not_mem {c : Char} {l : Str} (h : c ∉ l) :
    splitChar c l = none := by
  induction l with
  | nil => rfl
  | cons x xs ih =>
    simp only [List.mem_cons, not_or] at h
    have hxc : ¬ x = c := fun hxc => h.1 hxc.symm
    simp only [splitChar, if_neg hxc, ih h.2]

/-- A failed last-occurrence split means the character is absent. -/
theorem splitLastChar_eq_none {c : Char} :
    ∀ {l : Str}, splitLastChar c l = none → c ∉ l := by
  intro l
  induction l with
  | nil => intro _; simp
  | cons x xs ih =>
    intro h
    simp only [splitLastChar] at h
    cases hs : splitLastChar c xs with
    | some p => rw [hs] at h; simp at h
    | none =>
      rw [hs] at h
      by_cases hx : x = c
      · subst hx
        simp at h
      · simp only [List.mem_cons, not_or]
        exact ⟨fun hc => hx hc.symm, ih hs⟩

/-- A successful last-occurrence split decomposes the string, with no
further occurrence after the split point. -/
theorem splitLastChar_eq_some {c : Char} :
    ∀ {l a b : Str}, splitLastChar c l = some (a, b) → l = a ++ c :: b ∧ c ∉ b := by
  intro l
  induction l with
  | nil => intro a b h; simp [splitLastChar] at h
  | cons x xs ih =>
    intro a b h
    simp only [splitLastChar] at h
    cases hs : splitLastChar c xs with
    | some p =>
      rcases p with ⟨a', b'⟩
      rw [hs] at h
      simp only [Option.some.injEq, Prod.mk.injEq] at h
      obtain ⟨h1, h2⟩ := h
      subst h1
      subst h2
      obtain ⟨hxs, hnb⟩ := ih hs
      exact ⟨by rw [hxs]; rfl, hnb⟩
    | none =>
      rw [hs] at h
      by_cases hx : x = c
      · subst hx
        simp only [if_true, Option.some.injEq, Prod.mk.injEq] at h
        obtain ⟨h1, h2⟩ := h
        subst h1
        subst h2
        exact ⟨rfl, splitLastChar_eq_none hs⟩
      · rw [if_neg hx] at h
        simp at h

/-! ### Scheme-extraction lemmas -/

/-- Every character of a valid scheme is a scheme character. -/
theorem validScheme_all {s : Str} (h : validScheme s = true) :
    ∀ x ∈ s, isSchemeChar x = true := by
  cases s with
  | nil => simp [validScheme] at h
  | cons c cs =>
    simp only [validScheme, Bool.and_eq_true] at h
    intro x hx
    rcases List.mem_cons.mp hx with rfl | hx
    · rw [isSchemeChar_iff]
      rcases (isAsciiAlpha_iff x).mp h.1 with h' | h'
      · exact Or.inl h'
      · exact Or.inr (Or.inl h')
    · exact List.all_eq_true.mp h.2 x hx

/-- A valid scheme contains no colon. -/
theorem validScheme_colon_not_mem {s : Str} (h : validScheme s = true) : ':' ∉ s :=
  fun hm => (isSchemeChar_not_delim (validScheme_all h ':' hm)).1 rfl

/-- Valid schemes stay valid under lowercasing. -/
theorem validScheme_lower {s : Str} (h : validScheme s = true) :
    validScheme (lowerStr s) = true := by
  cases s with
  | nil => simp [validScheme] at h
  | cons c cs =>
    simp only [validScheme, Bool.and_eq_true] at h
    simp only [lowerStr, List.map_cons, validScheme, Bool.and_eq_true]
    refine ⟨isAsciiAlpha_toLower h.1, ?_⟩
    rw [List.all_eq_true]
    intro x hx
    rw [List.mem_map] at hx
    obtain ⟨y, hy, rfl⟩ := hx
    exact isSchemeChar_toLower (List.all_eq_true.mp h.2 y hy)

/-- A string containing a non-scheme character before any colon is not a
valid scheme. -/
theorem validScheme_false_of_bad_mem {pre : Str} {d : Char} (hmem : d ∈ pre)
    (hd : isSchemeChar d = false) : validScheme pre = false := by
  cases hb : validScheme pre
  · rfl
  · rw [validScheme_all hb d hmem] at hd
    cases hd

/-- `splitScheme` recovers an explicitly placed valid, lowercase
scheme. -/
theorem splitScheme_of_scheme {s : Str} (b : Str) (hv : validScheme s = true)
    (hl : lowerStr s = s) : splitScheme (s ++ ':' :: b) = (s, b) := by
  unfold splitScheme
  rw [splitChar_append b (validScheme_colon_not_mem hv)]
  dsimp only
  rw [if_pos hv, hl]

/-- When `splitScheme` extracts no scheme, the string is returned
whole. -/
theorem splitScheme_fst_empty {u : Str} (h : (splitScheme u).1 = []) :
    (splitScheme u).2 = u := by
  unfold splitScheme at h ⊢
  cases hs : splitChar ':' u with
  | none => rfl
  | some p =>
    rcases p with ⟨pre, rest⟩
    rw [hs] at h
    dsimp only at h ⊢
    by_cases hv : validScheme pre = true
    · rw [if_pos hv] at h ⊢
      exfalso
      cases pre with
      | nil => simp [validScheme] at hv
      | cons c cs => simp [lowerStr] at h
    · rw [if_neg hv]

/-- The extracted scheme is empty or a valid lowercase scheme. -/
theorem splitScheme_fst_spec (u : Str) :
    (splitScheme u).1 = [] ∨
      (validScheme (splitScheme u).1 = true ∧
        lowerStr (splitScheme u).1 = (splitScheme u).1) := by
  unfold splitScheme
  cases hs : splitChar ':' u with
  | none => exact Or.inl rfl
  | some p =>
    rcases p with ⟨pre, rest⟩
    dsimp only
    by_cases hv : validScheme pre = true
    · rw [if_pos hv]
      exact Or.inr ⟨validScheme_lower hv, lowerStr_idem pre⟩
    · rw [if_neg hv]
      exact Or.inl rfl

/-- The remainder after a nonempty scheme: the original string is the
scheme (before lowercasing) followed by a colon and the remainder. -/
theorem splitScheme_decomp {u : Str} (h : (splitScheme u).1 ≠ []) :
    ∃ pre, u = pre ++ ':' :: (splitScheme u).2 ∧ validScheme pre = true ∧
      lowerStr pre = (splitScheme u).1 := by
  unfold splitScheme at h ⊢
  cases hs : splitChar ':' u with
  | none => rw [hs] at h; exact absurd rfl h
  | some p =>
    rcases p with ⟨pre, rest⟩
    rw [hs] at h
    dsimp only at h ⊢
    obtain ⟨hdec, -⟩ := splitChar_eq_some hs
    by_cases hv : validScheme pre = true
    · rw [if_pos hv] at h ⊢
      exact ⟨pre, hdec, hv, rfl⟩
    · rw [if_neg hv] at h
      exact absurd rfl h

/-- A string whose head is `/` has no scheme. -/
theorem splitScheme_headSlash {u : Str} (h : u.head? = some '/') :
    splitScheme u = ([], u) := by
  unfold splitScheme
  cases hs : splitChar ':' u with
  | none => rfl
  | some p =>
    rcases p with ⟨pre, rest⟩
    obtain ⟨hdec, hnot⟩ := splitChar_eq_some hs
    have hv : ¬ validScheme pre = true := by
      cases pre with
      | nil => simp [validScheme]
      | cons c cs =>
        rw [hdec] at h
        simp only [List.cons_append, List.head?_cons, Option.some.injEq] at h
        subst h
        simp [validScheme, isAsciiAlpha]
    dsimp only
    rw [if_neg hv]

/-- A prefix of a scheme-less string is scheme-less. -/
theorem splitScheme_prefix {u b t : Str} (hu : splitScheme u = ([], u))
    (hbt : b ++ t = u) : splitScheme b = ([], b) := by
  unfold splitScheme at hu ⊢
  cases hsb : splitChar ':' b with
  | none => rfl
  | some p =>
    rcases p with ⟨pre, rest⟩
    obtain ⟨hdec, hnot⟩ := splitChar_eq_some hsb
    have hu' : splitChar ':' u = some (pre, rest ++ t) := by
      rw [← hbt, hdec, List.append_assoc, List.cons_append]
      exact splitChar_append _ hnot
    rw [hu'] at hu
    dsimp only at hu ⊢
    by_cases hv : validScheme pre = true
    · rw [if_pos hv] at hu
      exfalso
      have hfst : lowerStr pre = [] := congrArg Prod.fst hu
      cases pre with
      | nil => simp [validScheme] at hv
      | cons c cs => simp [lowerStr] at hfst
    · rw [if_neg hv]

/-- Appending a non-scheme delimiter and arbitrary material to a
scheme-less string keeps it scheme-less. -/
theorem splitScheme_append_delim {pa : Str} {d : Char} (rest : Str)
    (hpa : splitScheme pa = ([], pa)) (hd : isSchemeChar d = false)
    (hdc : d ≠ ':') :
    splitScheme (pa ++ d :: rest) = ([], pa ++ d :: rest) := by
  unfold splitScheme at hpa ⊢
  cases hs : splitChar ':' pa with
  | some p =>
    rcases p with ⟨pre, r⟩
    obtain ⟨hdec, hnot⟩ := splitChar_eq_some hs
    have hfull : splitChar ':' (pa ++ d :: rest) = some (pre, r ++ d :: rest) := by
      rw [hdec, List.append_assoc, List.cons_append]
      exact splitChar_append _ hnot
    rw [hs] at hpa
    rw [hfull]
    dsimp only at hpa ⊢
    by_cases hv : validScheme pre = true
    · rw [if_pos hv] at hpa
      exfalso
      have hfst : lowerStr pre = [] := congrArg Prod.fst hpa
      cases pre with
      | nil => simp [validScheme] at hv
      | cons c cs => simp [lowerStr] at hfst
    · rw [if_neg hv]
  | none =>
    have hnpa := splitChar_eq_none hs
    cases hsf : splitChar ':' (pa ++ d :: rest) with
    | none => rfl
    | some p =>
      rcases p with ⟨pre, r⟩
      obtain ⟨hdec, hnot⟩ := splitChar_eq_some hsf
      have hmem : d ∈ pre := by
        rcases List.append_eq_append_iff.mp hdec with ⟨a', ha1, ha2⟩ | ⟨c', hc1, hc2⟩
        · cases a' with
          | nil =>
            rw [List.append_nil] at ha1
            simp only [List.nil_append, List.cons.injEq] at ha2
            exact absurd ha2.1 hdc
          | cons a0 a0s =>
            simp only [List.cons_append, List.cons.injEq] at ha2
            rw [ha1, ← ha2.1]
            exact List.mem_append_right _ (List.mem_cons_self _ _)
        · cases c' with
          | nil =>
            rw [List.append_nil] at hc1
            simp only [List.nil_append, List.cons.injEq] at hc2
            exact absurd hc2.1.symm hdc
          | cons c0 c0s =>
            simp only [List.cons_append, List.cons.injEq] at hc2
            exfalso
            apply hnpa
            rw [hc1, ← hc2.1]
            exact List.mem_append_right _ (List.mem_cons_self _ _)
      dsimp only
      rw [if_neg (by rw [validScheme_false_of_bad_mem hmem hd]; exact Bool.false_ne_true)]

/-! ### Netloc-extraction lemmas -/

/-- `takeWhile` walks through a block that satisfies the predicate. -/
theorem takeWhile_append_all {p : Char → Bool} :
    ∀ {a : Str}, (∀ x ∈ a, p x = true) → ∀ t, (a ++ t).takeWhile p = a ++ t.takeWhile p := by
  intro a
  induction a with
  | nil => intro _ t; rfl
  | cons x xs ih =>
    intro h t
    have hx : p x = true := h x (List.mem_cons_self _ _)
    simp only [List.cons_append, List.takeWhile_cons, hx, if_true]
    rw [ih (fun y hy => h y (List.mem_cons_of_mem _ hy)) t]

/-- `dropWhile` walks through a block that satisfies the predicate. -/
theorem dropWhile_append_all {p : Char → Bool} :
    ∀ {a : Str}, (∀ x ∈ a, p x = true) → ∀ t, (a ++ t).dropWhile p = t.dropWhile p := by
  intro a
  induction a with
  | nil => intro _ t; rfl
  | cons x xs ih =>
    intro h t
    have hx : p x = true := h x (List.mem_cons_self _ _)
    simp only [List.cons_append, List.dropWhile_cons, hx, if_true]
    exact ih (fun y hy => h y (List.mem_cons_of_mem _ hy)) t

/-- The head of a `dropWhile` residue fails the predicate. -/
theorem dropWhile_head_false {p : Char → Bool} :
    ∀ {l : Str} {x : Char} {xs : Str}, l.dropWhile p = x :: xs → p x = false := by
  intro l
  induction l with
  | nil => intro x xs h; simp at h
  | cons y ys ih =>
    intro x xs h
    by_cases hy : p y = true
    · rw [List.dropWhile_cons, if_pos hy] at h
      exact ih h
    · rw [List.dropWhile_cons, if_neg hy] at h
      obtain ⟨rfl, -⟩ := List.cons.injEq .. ▸ h
      exact bool_eq_false hy

/-- `splitNetloc` when the remainder does not start with `//`. -/
theorem splitNetloc_other {u : Str} (h : ¬ u.take 2 = ['/', '/']) :
    splitNetloc u = ([], u) := by
  rw [splitNetloc, if_neg h]

/-- `splitNetloc` on an explicitly assembled authority part: the netloc
(free of delimiters) is recovered, and the remainder begins at the first
delimiter. -/
theorem splitNetloc_assembled {nl url2 : Str}
    (hnl : ∀ x ∈ nl, isNetlocDelim x = false) (hu : url2.head? = some '/') :
    splitNetloc ('/' :: '/' :: (nl ++ url2)) = (nl, url2) := by
  rw [splitNetloc,
    if_pos (show ('/' :: '/' :: (nl ++ url2)).take 2 = ['/', '/'] from rfl)]
  rcases url2 with _ | ⟨c, cs⟩
  · simp at hu
  · simp only [List.head?_cons, Option.some.injEq] at hu
    subst hu
    simp only [List.drop_succ_cons, List.drop_zero]
    rw [Prod.mk.injEq]
    constructor
    · rw [takeWhile_append_all (fun x hx => by simp [hnl x hx]) _,
        List.takeWhile_cons]
      simp [isNetlocDelim]
    · rw [dropWhile_append_all (fun x hx => by simp [hnl x hx]) _,
        List.dropWhile_cons]
      simp [isNetlocDelim]

/-- The extracted netloc contains no delimiter. -/
theorem splitNetloc_fst_no_delim (u : Str) :
    ∀ x ∈ (splitNetloc u).1, isNetlocDelim x = false := by
  intro x hx
  rw [splitNetloc] at hx
  by_cases h : u.take 2 = ['/', '/']
  · rw [if_pos h] at hx
    have := List.mem_takeWhile_imp hx
    simpa using this
  · rw [if_neg h] at hx
    simp at hx

/-- Shape of `splitNetloc` in the `//` branch: the string decomposes and
the remainder is empty or starts with a delimiter. -/
theorem splitNetloc_cond_spec {u : Str} (h : u.take 2 = ['/', '/']) :
    u = '/' :: '/' :: ((splitNetloc u).1 ++ (splitNetloc u).2) ∧
      ((splitNetloc u).2 = [] ∨
        ∃ c cs, (splitNetloc u).2 = c :: cs ∧ isNetlocDelim c = true) := by
  rw [splitNetloc, if_pos h]
  dsimp only
  constructor
  · conv_lhs => rw [← List.take_append_drop 2 u]
    rw [h, List.takeWhile_append_dropWhile]
    rfl
  · rcases hd : (u.drop 2).dropWhile (fun c => !isNetlocDelim c) with _ | ⟨c, cs⟩
    · exact Or.inl rfl
    · refine Or.inr ⟨c, cs, rfl, ?_⟩
      have := dropWhile_head_false hd
      simpa using this

/-! ### Fragment, query and params lemmas -/

/-- `splitFragment` never keeps a `#` in its first component, and the
string decomposes accordingly. -/
theorem splitFragment_spec (u : Str) :
    '#' ∉ (splitFragment u).1 ∧
      ((splitFragment u).1 = u ∨
        u = (splitFragment u).1 ++ '#' :: (splitFragment u).2) := by
  rw [splitFragment]
  cases hs : splitChar '#' u with
  | none => exact ⟨splitChar_eq_none hs, Or.inl rfl⟩
  | some p =>
    rcases p with ⟨a, b⟩
    obtain ⟨hdec, hna⟩ := splitChar_eq_some hs
    exact ⟨hna, Or.inr hdec⟩

/-- `splitFragment` of a hash-free string. -/
theorem splitFragment_not_mem {u : Str} (h : '#' ∉ u) :
    splitFragment u = (u, []) := by
  rw [splitFragment, splitChar_not_mem h]

/-- `splitQuery` never keeps a `?` in its first component, and the string
decomposes accordingly. -/
theorem splitQuery_spec (u : Str) :
    '?' ∉ (splitQuery u).1 ∧
      ((splitQuery u).1 = u ∧ (splitQuery u).2 = [] ∨
        u = (splitQuery u).1 ++ '?' :: (splitQuery u).2) := by
  rw [splitQuery]
  cases hs : splitChar '?' u with
  | none => exact ⟨splitChar_eq_none hs, Or.inl ⟨rfl, rfl⟩⟩
  | some p =>
    rcases p with ⟨a, b⟩
    obtain ⟨hdec, hna⟩ := splitChar_eq_some hs
    exact ⟨hna, Or.inr hdec⟩

/-- `splitQuery` of a question-mark-free string. -/
theorem splitQuery_not_mem {u : Str} (h : '?' ∉ u) :
    splitQuery u = (u, []) := by
  rw [splitQuery, splitChar_not_mem h]

/-- `splitQuery` at an explicitly placed first `?`. -/
theorem splitQuery_append {a : Str} (b : Str) (h : '?' ∉ a) :
    splitQuery (a ++ '?' :: b) = (a, b) := by
  rw [splitQuery, splitChar_append b h]

/-- `splitparams` either extracts nothing or splits the string at a
semicolon. -/
theorem splitparams_decomp (u : Str) :
    ((splitparams u).2 = [] ∧ (splitparams u).1 = u) ∨
      (splitparams u).1 ++ ';' :: (splitparams u).2 = u := by
  rw [splitparams]
  cases hsl : splitLastChar '/' u with
  | some p =>
    rcases p with ⟨a, b⟩
    obtain ⟨hdec, hslash⟩ := splitLastChar_eq_some hsl
    dsimp only
    cases hsc : splitChar ';' b with
    | some q =>
      rcases q with ⟨x, y⟩
      obtain ⟨hbd, hsemi⟩ := splitChar_eq_some hsc
      right
      dsimp only
      rw [List.append_assoc, List.cons_append, ← hbd]
      exact hdec.symm
    | none => exact Or.inl ⟨rfl, rfl⟩
  | none =>
    dsimp only
    cases hsc : splitChar ';' u with
    | some q =>
      rcases q with ⟨x, y⟩
      dsimp only
      exact Or.inr (splitChar_eq_some hsc).1.symm
    | none => exact Or.inl ⟨rfl, rfl⟩

/-- The params component never contains a slash. -/
theorem splitparams_no_slash (u : Str) : '/' ∉ (splitparams u).2 := by
  rw [splitparams]
  cases hsl : splitLastChar '/' u with
  | some p =>
    rcases p with ⟨a, b⟩
    obtain ⟨hdec, hslash⟩ := splitLastChar_eq_some hsl
    dsimp only
    cases hsc : splitChar ';' b with
    | some q =>
      rcases q with ⟨x, y⟩
      obtain ⟨hbd, hsemi⟩ := splitChar_eq_some hsc
      dsimp only
      intro hy
      apply hslash
      rw [hbd]
      exact List.mem_append_right _ (List.mem_cons_of_mem _ hy)
    | none => simp
  | none =>
    have hnu := splitLastChar_eq_none hsl
    dsimp only
    cases hsc : splitChar ';' u with
    | some q =>
      rcases q with ⟨x, y⟩
      obtain ⟨hud, -⟩ := splitChar_eq_some hsc
      dsimp only
      intro hy
      apply hnu
      rw [hud]
      exact List.mem_append_right _ (List.mem_cons_of_mem _ hy)
    | none => simp

/-- Prepending a slash commutes with `splitparams`. -/
theorem splitparams_cons_slash (l : Str) :
    splitparams ('/' :: l) = ('/' :: (splitparams l).1, (splitparams l).2) := by
  rw [splitparams, splitparams]
  cases hsl : splitLastChar '/' l with
  | some p =>
    rcases p with ⟨a, b⟩
    have hcons : splitLastChar '/' ('/' :: l) = some ('/' :: a, b) := by
      simp [splitLastChar, hsl]
    rw [hcons]
    cases hsc : splitChar ';' b with
    | some q =>
      rcases q with ⟨x, y⟩
      simp [hsc]
    | none => simp [hsc]
  | none =>
    have hcons : splitLastChar '/' ('/' :: l) = some ([], l) := by
      simp [splitLastChar, hsl]
    rw [hcons]
    cases hsc : splitChar ';' l with
    | some q =>
      rcases q with ⟨x, y⟩
      simp [hsc]
    | none => simp [hsc]

/-! ### Round-trip assembly lemmas -/

/-- `urlunsplit` with an empty fragment, unfolded. -/
theorem urlunsplit_no_frag (sch nl url qy : Str) :
    urlunsplit sch nl url qy [] =
      (if qy ≠ [] then
        (if sch ≠ [] then
          sch ++ ':' ::
            (if nl ≠ [] ∨ (sch ≠ [] ∧ sch ∈ usesNetloc ∧ url.take 2 ≠ ['/', '/']) then
              '/' :: '/' :: nl ++ (if url ≠ [] ∧ url.head? ≠ some '/' then '/' :: url else url)
            else url)
        else
          (if nl ≠ [] ∨ (sch ≠ [] ∧ sch ∈ usesNetloc ∧ url.take 2 ≠ ['/', '/']) then
            '/' :: '/' :: nl ++ (if url ≠ [] ∧ url.head? ≠ some '/' then '/' :: url else url)
          else url)) ++ '?' :: qy
      else
        (if sch ≠ [] then
          sch ++ ':' ::
            (if nl ≠ [] ∨ (sch ≠ [] ∧ sch ∈ usesNetloc ∧ url.take 2 ≠ ['/', '/']) then
              '/' :: '/' :: nl ++ (if url ≠ [] ∧ url.head? ≠ some '/' then '/' :: url else url)
            else url)
        else
          (if nl ≠ [] ∨ (sch ≠ [] ∧ sch ∈ usesNetloc ∧ url.take 2 ≠ ['/', '/']) then
            '/' :: '/' :: nl ++ (if url ≠ [] ∧ url.head? ≠ some '/' then '/' :: url else url)
          else url))) := by
  rw [urlunsplit, if_neg (by simp : ¬ ([] : Str) ≠ [])]

/-- Stripping fragment and query off an assembled `path[;params][?query]`
tail. -/
theorem fragment_query_tail {RP qy : Str} (h1 : '#' ∉ RP) (h2 : '?' ∉ RP)
    (h3 : '#' ∉ qy) :
    splitFragment (if qy ≠ [] then RP ++ '?' :: qy else RP)
        = ((if qy ≠ [] then RP ++ '?' :: qy else RP), []) ∧
      splitQuery (if qy ≠ [] then RP ++ '?' :: qy else RP) = (RP, qy) := by
  by_cases hq : qy = []
  · subst hq
    rw [if_neg (by simp)]
    exact ⟨splitFragment_not_mem h1, splitQuery_not_mem h2⟩
  · rw [if_pos hq]
    constructor
    · refine splitFragment_not_mem ?_
      intro hmem
      rcases List.mem_append.mp hmem with hmem | hmem
      · exact h1 hmem
      · rcases List.mem_cons.mp hmem with hc | hmem
        · exact absurd hc (by decide)
        · exact h3 hmem
    · exact splitQuery_append qy h2

/-- The params gate commutes with prepending a slash to the raw path. -/
theorem params_gate_cons_slash (sch pa pr RP : Str)
    (hparams : (if sch ∈ usesParams ∧ ';' ∈ RP then splitparams RP else (RP, []))
      = (pa, pr)) :
    (if sch ∈ usesParams ∧ ';' ∈ '/' :: RP then splitparams ('/' :: RP)
      else ('/' :: RP, [])) = ('/' :: pa, pr) := by
  have hsemi : (';' ∈ '/' :: RP) ↔ (';' ∈ RP) := by simp
  by_cases hg : sch ∈ usesParams ∧ ';' ∈ RP
  · rw [if_pos ⟨hg.1, hsemi.mpr hg.2⟩, splitparams_cons_slash]
    rw [if_pos hg] at hparams
    rw [hparams]
  · rw [if_neg hg] at hparams
    rw [if_neg (fun hc => hg ⟨hc.1, hsemi.mp hc.2⟩)]
    have h1 : RP = pa := congrArg Prod.fst hparams
    have h2 : ([] : Str) = pr := congrArg Prod.snd hparams
    rw [h1, h2]

/-- `urlparse` written out as projections of the split stages. -/
theorem urlparse_proj (u : Str) :
    urlparse u =
      ⟨(splitScheme u).1, (splitNetloc (splitScheme u).2).1,
        (if (splitScheme u).1 ∈ usesParams ∧
            ';' ∈ (splitQuery (splitFragment (splitNetloc (splitScheme u).2).2).1).1
         then splitparams (splitQuery (splitFragment (splitNetloc (splitScheme u).2).2).1).1
         else ((splitQuery (splitFragment (splitNetloc (splitScheme u).2).2).1).1, [])).1,
        (if (splitScheme u).1 ∈ usesParams ∧
            ';' ∈ (splitQuery (splitFragment (splitNetloc (splitScheme u).2).2).1).1
         then splitparams (splitQuery (splitFragment (splitNetloc (splitScheme u).2).2).1).1
         else ((splitQuery (splitFragment (splitNetloc (splitScheme u).2).2).1).1, [])).2,
        (splitQuery (splitFragment (splitNetloc (splitScheme u).2).2).1).2,
        (splitFragment (splitNetloc (splitScheme u).2).2).2⟩ := rfl

/-- `urlparse` of a string with a known scheme part: the parse is driven
by the split stages of the body. -/
theorem urlparse_build (sch body : Str)
    (hs : sch = [] ∨ (validScheme sch = true ∧ lowerStr sch = sch))
    (hbody : sch = [] → splitScheme body = ([], body)) :
    urlparse (if sch ≠ [] then sch ++ ':' :: body else body) =
      ⟨sch, (splitNetloc body).1,
        (if sch ∈ usesParams ∧
            ';' ∈ (splitQuery (splitFragment (splitNetloc body).2).1).1
         then splitparams (splitQuery (splitFragment (splitNetloc body).2).1).1
         else ((splitQuery (splitFragment (splitNetloc body).2).1).1, [])).1,
        (if sch ∈ usesParams ∧
            ';' ∈ (splitQuery (splitFragment (splitNetloc body).2).1).1
         then splitparams (splitQuery (splitFragment (splitNetloc body).2).1).1
         else ((splitQuery (splitFragment (splitNetloc body).2).1).1, [])).2,
        (splitQuery (splitFragment (splitNetloc body).2).1).2,
        (splitFragment (splitNetloc body).2).2⟩ := by
  by_cases h : sch = []
  · subst h
    rw [if_neg (by simp), urlparse_proj, hbody rfl]
  · rw [if_pos h]
    obtain ⟨hv, hl⟩ := hs.resolve_left h
    rw [urlparse_proj, splitScheme_of_scheme body hv hl]

/-- The first two characters of a nonempty string followed by a non-slash
block cannot become `//` if they were not already. -/
theorem take2_append_ne {a : Str} (t : Str) (ha : a ≠ [])
    (h2 : a.take 2 ≠ ['/', '/']) (ht : ∀ c cs, t = c :: cs → c ≠ '/') :
    (a ++ t).take 2 ≠ ['/', '/'] := by
  cases a with
  | nil => exact absurd rfl ha
  | cons c1 a1 =>
    cases a1 with
    | cons c2 a2 => exact h2
    | nil =>
      cases t with
      | nil => simp
      | cons d ds =>
        intro heq
        simp only [List.cons_append, List.nil_append, List.take_succ_cons,
          List.take_zero, List.cons.injEq] at heq
        exact ht d ds rfl heq.2.1

/-- Head of an append with nonempty left part. -/
theorem head_append_left {a : Str} (t : Str) (ha : a ≠ []) :
    (a ++ t).head? = a.head? := by
  cases a with
  | nil => exact absurd rfl ha
  | cons c a1 => rfl

/-- Pulling a conditional query suffix out of an append. -/
theorem append_qpart (X qy : Str) :
    X ++ (if qy ≠ [] then '?' :: qy else []) =
      (if qy ≠ [] then X ++ '?' :: qy else X) := by
  by_cases h : qy = []
  · simp [h]
  · simp [h]

/-- Parsing an assembled URL with an authority part (`//netloc` present in
the output) recovers the components. -/
theorem parse_authority (sch nl url2 qy pa pr : Str)
    (hsch : sch = [] ∨ (validScheme sch = true ∧ lowerStr sch = sch))
    (hnl : ∀ x ∈ nl, isNetlocDelim x = false)
    (hu2 : url2.head? = some '/')
    (hu2_hash : '#' ∉ url2) (hu2_q : '?' ∉ url2) (hqy_hash : '#' ∉ qy)
    (hgate : (if sch ∈ usesParams ∧ ';' ∈ url2 then splitparams url2
      else (url2, [])) = (pa, pr)) :
    urlparse
        (if sch ≠ [] then
          sch ++ ':' :: ('/' :: '/' :: (nl ++ (url2 ++ (if qy ≠ [] then '?' :: qy else []))))
        else '/' :: '/' :: (nl ++ (url2 ++ (if qy ≠ [] then '?' :: qy else []))))
      = ⟨sch, nl, pa, pr, qy, []⟩ := by
  have hu2_ne : url2 ≠ [] := by
    intro h
    rw [h] at hu2
    simp at hu2
  rw [urlparse_build sch
    ('/' :: '/' :: (nl ++ (url2 ++ (if qy ≠ [] then '?' :: qy else []))))
    hsch (fun _ => splitScheme_headSlash rfl)]
  have hnet : splitNetloc ('/' :: '/' :: (nl ++ (url2 ++ (if qy ≠ [] then '?' :: qy else []))))
      = (nl, url2 ++ (if qy ≠ [] then '?' :: qy else [])) :=
    splitNetloc_assembled hnl (by rw [head_append_left _ hu2_ne]; exact hu2)
  rw [hnet]
  dsimp only
  rw [append_qpart]
  obtain ⟨hfr, hqu⟩ := fragment_query_tail hu2_hash hu2_q hqy_hash
  rw [hfr]
  dsimp only
  rw [hqu]
  dsimp only
  rw [hgate]

/-- Parsing an assembled URL with no authority part recovers the
components with an empty netloc. -/
theorem parse_plain (sch RP qy pa pr : Str)
    (hsch : sch = [] ∨ (validScheme sch = true ∧ lowerStr sch = sch))
    (hRP_ne : RP ≠ [])
    (hRP_take2 : RP.take 2 ≠ ['/', '/'])
    (hRP_hash : '#' ∉ RP) (hRP_q : '?' ∉ RP) (hqy_hash : '#' ∉ qy)
    (hnoscheme : sch = [] →
      splitScheme (RP ++ (if qy ≠ [] then '?' :: qy else []))
        = ([], RP ++ (if qy ≠ [] then '?' :: qy else [])))
    (hgate : (if sch ∈ usesParams ∧ ';' ∈ RP then splitparams RP
      else (RP, [])) = (pa, pr)) :
    urlparse
        (if sch ≠ [] then sch ++ ':' :: (RP ++ (if qy ≠ [] then '?' :: qy else []))
        else RP ++ (if qy ≠ [] then '?' :: qy else []))
      = ⟨sch, [], pa, pr, qy, []⟩ := by
  rw [urlparse_build sch _ hsch hnoscheme]
  have hnet : splitNetloc (RP ++ (if qy ≠ [] then '?' :: qy else []))
      = ([], RP ++ (if qy ≠ [] then '?' :: qy else [])) := by
    refine splitNetloc_other ?_
    refine take2_append_ne _ hRP_ne hRP_take2 ?_
    intro c cs hc
    by_cases hq : qy = []
    · rw [if_neg (by simp [hq])] at hc
      cases hc
    · rw [if_pos hq] at hc
      injection hc with h1 h2
      rw [← h1]
      decide
  rw [hnet]
  dsimp only
  rw [append_qpart]
  obtain ⟨hfr, hqu⟩ := fragment_query_tail hRP_hash hRP_q hqy_hash
  rw [hfr]
  dsimp only
  rw [hqu]
  dsimp only
  rw [hgate]

/-- Re-parsing the unparse of normalized components either reproduces the
components exactly, or (only when a netloc-using scheme stands before an
empty netloc and a relative path) reproduces them with a `/` prepended to
the path. -/
theorem parse_of_unparse (sch nl pa pr qy RP : Str)
    (hRP : RP = if pr ≠ [] then pa ++ ';' :: pr else pa)
    (hsch : sch = [] ∨ (validScheme sch = true ∧ lowerStr sch = sch))
    (hnl : ∀ x ∈ nl, isNetlocDelim x = false)
    (hpa_ne : pa ≠ [])
    (hpa_hash : '#' ∉ pa) (hpa_q : '?' ∉ pa)
    (hpr_hash : '#' ∉ pr) (hpr_q : '?' ∉ pr)
    (hqy_hash : '#' ∉ qy)
    (hnl_pa : nl ≠ [] → pa.head? = some '/')
    (hempty : nl = [] → pa.take 2 ≠ ['/', '/'])
    (hnoscheme_pa : sch = [] → nl = [] → splitScheme pa = ([], pa))
    (hparams : (if sch ∈ usesParams ∧ ';' ∈ RP then splitparams RP
      else (RP, [])) = (pa, pr)) :
    urlparse (urlunparse ⟨sch, nl, pa, pr, qy, []⟩) = ⟨sch, nl, pa, pr, qy, []⟩ ∨
      (nl = [] ∧
        urlparse (urlunparse ⟨sch, nl, pa, pr, qy, []⟩)
          = ⟨sch, nl, '/' :: pa, pr, qy, []⟩ ∧
        pa.head? ≠ some '/' ∧ sch ≠ [] ∧ sch ∈ usesNetloc) := by
  have hRP_ne : RP ≠ [] := by
    rw [hRP]
    by_cases h : pr = []
    · simpa [h] using hpa_ne
    · simp [h, hpa_ne]
  have hRP_head : RP.head? = pa.head? := by
    rw [hRP]
    by_cases h : pr = []
    · simp [h]
    · rw [if_pos h, head_append_left _ hpa_ne]
  have hRP_hash : '#' ∉ RP := by
    rw [hRP]
    by_cases h : pr = []
    · simpa [h] using hpa_hash
    · rw [if_pos h]
      intro hm
      rcases List.mem_append.mp hm with hm | hm
      · exact hpa_hash hm
      · rcases List.mem_cons.mp hm with hc | hm
        · exact absurd hc (by decide)
        · exact hpr_hash hm
  have hRP_q : '?' ∉ RP := by
    rw [hRP]
    by_cases h : pr = []
    · simpa [h] using hpa_q
    · rw [if_pos h]
      intro hm
      rcases List.mem_append.mp hm with hm | hm
      · exact hpa_q hm
      · rcases List.mem_cons.mp hm with hc | hm
        · exact absurd hc (by decide)
        · exact hpr_q hm
  have hRP_take2 : nl = [] → RP.take 2 ≠ ['/', '/'] := by
    intro h0
    rw [hRP]
    by_cases h : pr = []
    · simpa [h] using hempty h0
    · rw [if_pos h]
      refine take2_append_ne _ hpa_ne (hempty h0) ?_
      intro c cs hc
      injection hc with h1 h2
      rw [← h1]
      decide
  have hunp : urlunparse ⟨sch, nl, pa, pr, qy, []⟩ = urlunsplit sch nl RP qy [] := by
    rw [urlunparse]
    dsimp only
    rw [← hRP]
  by_cases hb1 : nl = []
  · subst hb1
    by_cases hb2 : sch ≠ [] ∧ sch ∈ usesNetloc
    · have ht2 : RP.take 2 ≠ ['/', '/'] := hRP_take2 rfl
      have hc : (([] : Str) ≠ [] ∨ (sch ≠ [] ∧ sch ∈ usesNetloc ∧ RP.take 2 ≠ ['/', '/'])) :=
        Or.inr ⟨hb2.1, hb2.2, ht2⟩
      by_cases hhead : RP.head? = some '/'
      · have hp : ¬(RP ≠ [] ∧ RP.head? ≠ some '/') := by simp [hhead]
        have hstr : urlunsplit sch [] RP qy [] =
            (if sch ≠ [] then
              sch ++ ':' :: ('/' :: '/' :: (([] : Str) ++ (RP ++ (if qy ≠ [] then '?' :: qy else []))))
            else '/' :: '/' :: (([] : Str) ++ (RP ++ (if qy ≠ [] then '?' :: qy else [])))) := by
          rw [urlunsplit_no_frag]
          simp only [if_pos hc, if_neg hp]
          by_cases hq : qy = [] <;> by_cases hs0 : sch = [] <;>
            simp [hq, hs0, List.append_assoc]
        left
        rw [hunp, hstr]
        exact parse_authority sch [] RP qy pa pr hsch (by intro x hx; cases hx)
          hhead hRP_hash hRP_q hqy_hash hparams
      · have hp : (RP ≠ [] ∧ RP.head? ≠ some '/') := ⟨hRP_ne, hhead⟩
        have hstr : urlunsplit sch [] RP qy [] =
            (if sch ≠ [] then
              sch ++ ':' :: ('/' :: '/' :: (([] : Str) ++ (('/' :: RP) ++ (if qy ≠ [] then '?' :: qy else []))))
            else '/' :: '/' :: (([] : Str) ++ (('/' :: RP) ++ (if qy ≠ [] then '?' :: qy else [])))) := by
          rw [urlunsplit_no_frag]
          simp only [if_pos hc, if_pos hp]
          by_cases hq : qy = [] <;> by_cases hs0 : sch = [] <;>
            simp [hq, hs0, List.append_assoc]
        right
        refine ⟨rfl, ?_, ?_, hb2.1, hb2.2⟩
        · rw [hunp, hstr]
          have hgate2 : (if sch ∈ usesParams ∧ ';' ∈ '/' :: RP then splitparams ('/' :: RP)
              else ('/' :: RP, [])) = ('/' :: pa, pr) :=
            params_gate_cons_slash sch pa pr RP hparams
          refine parse_authority sch [] ('/' :: RP) qy ('/' :: pa) pr hsch
            (by intro x hx; cases hx) rfl ?_ ?_ hqy_hash hgate2
          · intro hm
            rcases List.mem_cons.mp hm with hc' | hm
            · exact absurd hc' (by decide)
            · exact hRP_hash hm
          · intro hm
            rcases List.mem_cons.mp hm with hc' | hm
            · exact absurd hc' (by decide)
            · exact hRP_q hm
        · rw [← hRP_head]
          exact hhead
    · have hc : ¬(([] : Str) ≠ [] ∨ (sch ≠ [] ∧ sch ∈ usesNetloc ∧ RP.take 2 ≠ ['/', '/'])) := by
        rintro (h | ⟨h1, h2, h3⟩)
        · exact h rfl
        · exact hb2 ⟨h1, h2⟩
      have hnos : sch = [] →
          splitScheme (RP ++ (if qy ≠ [] then '?' :: qy else []))
            = ([], RP ++ (if qy ≠ [] then '?' :: qy else [])) := by
        intro h0
        have hpa0 : splitScheme pa = ([], pa) := hnoscheme_pa h0 rfl
        have hRP0 : splitScheme RP = ([], RP) := by
          rw [hRP]
          by_cases h : pr = []
          · simpa [h] using hpa0
          · rw [if_pos h]
            exact splitScheme_append_delim pr hpa0 (by decide) (by decide)
        by_cases hq : qy = []
        · simpa [hq] using hRP0
        · rw [if_pos hq]
          exact splitScheme_append_delim qy hRP0 (by decide) (by decide)
      have hstr : urlunsplit sch [] RP qy [] =
          (if sch ≠ [] then sch ++ ':' :: (RP ++ (if qy ≠ [] then '?' :: qy else []))
          else RP ++ (if qy ≠ [] then '?' :: qy else [])) := by
        rw [urlunsplit_no_frag]
        simp only [if_neg hc]
        by_cases hq : qy = [] <;> by_cases hs0 : sch = [] <;>
          simp [hq, hs0, List.append_assoc]
      left
      rw [hunp, hstr]
      exact parse_plain sch RP qy pa pr hsch hRP_ne (hRP_take2 rfl) hRP_hash hRP_q
        hqy_hash hnos hparams
  · -- nl nonempty: authority branch, never prepending
    have hhead : RP.head? = some '/' := by rw [hRP_head]; exact hnl_pa hb1
    have hp : ¬(RP ≠ [] ∧ RP.head? ≠ some '/') := by simp [hhead]
    have hc : (nl ≠ [] ∨ (sch ≠ [] ∧ sch ∈ usesNetloc ∧ RP.take 2 ≠ ['/', '/'])) := Or.inl hb1
    have hstr : urlunsplit sch nl RP qy [] =
        (if sch ≠ [] then
          sch ++ ':' :: ('/' :: '/' :: (nl ++ (RP ++ (if qy ≠ [] then '?' :: qy else []))))
        else '/' :: '/' :: (nl ++ (RP ++ (if qy ≠ [] then '?' :: qy else [])))) := by
      rw [urlunsplit_no_frag]
      simp only [if_pos hc, if_neg hp]
      by_cases hq : qy = [] <;> by_cases hs0 : sch = [] <;>
        simp [hq, hs0, List.append_assoc]
    left
    rw [hunp, hstr]
    exact parse_authority sch nl RP qy pa pr hsch hnl hhead hRP_hash hRP_q hqy_hash hparams

/-- A last-occurrence split fails when the character is absent. -/
theorem splitLastChar_not_mem {c : Char} {l : Str} (h : c ∉ l) :
    splitLastChar c l = none := by
  induction l with
  | nil => rfl
  | cons x xs ih =>
    simp only [List.mem_cons, not_or] at h
    have hxc : ¬ x = c := fun e => h.1 e.symm
    simp only [splitLastChar, ih h.2, if_neg hxc]

/-- A last-occurrence split at an explicitly placed final occurrence. -/
theorem splitLastChar_append {c : Char} {b : Str} (a : Str) (h : c ∉ b) :
    splitLastChar c (a ++ c :: b) = some (a, b) := by
  induction a with
  | nil =>
    simp only [List.nil_append, splitLastChar, splitLastChar_not_mem h, if_pos rfl,
      if_true]
  | cons x xs ih =>
    simp only [List.cons_append, splitLastChar, List.append_eq, ih]

/-- A string whose first two characters are `//` starts with `/`. -/
theorem take2_head {l : Str} (h : l.take 2 = ['/', '/']) : l.head? = some '/' := by
  cases l with
  | nil => simp at h
  | cons x xs =>
    simp only [List.take_succ_cons, List.cons.injEq] at h
    rw [List.head?_cons, h.1]

/-- Being a netloc delimiter is invariant under lowercasing. -/
theorem isNetlocDelim_toLower (x : Char) :
    isNetlocDelim x.toLower = isNetlocDelim x := by
  unfold isNetlocDelim
  rw [decide_eq_decide.mpr (toLower_eq_small (s := '/') (by decide) x),
    decide_eq_decide.mpr (toLower_eq_small (s := '?') (by decide) x),
    decide_eq_decide.mpr (toLower_eq_small (s := '#') (by decide) x)]

/-- Lowercasing preserves freedom from netloc delimiters. -/
theorem lowerStr_no_delim {l : Str} (h : ∀ x ∈ l, isNetlocDelim x = false) :
    ∀ x ∈ lowerStr l, isNetlocDelim x = false := by
  intro x hx
  rw [lowerStr, List.mem_map] at hx
  obtain ⟨w, hw, hwx⟩ := hx
  rw [← hwx, isNetlocDelim_toLower]
  exact h w hw

/-- Lowercasing preserves emptiness. -/
theorem lowerStr_eq_nil {l : Str} : lowerStr l = [] ↔ l = [] := by
  unfold lowerStr
  exact List.map_eq_nil_iff

/-- `splitparams` of a path assembled from a slash segment and params. -/
theorem splitparams_eq_slash {a x y : Str} (hxs : '/' ∉ x) (hxsemi : ';' ∉ x)
    (hy : '/' ∉ y) :
    splitparams ((a ++ '/' :: x) ++ ';' :: y) = (a ++ '/' :: x, y) := by
  have hnb : '/' ∉ x ++ ';' :: y := by
    intro hm
    rcases List.mem_append.mp hm with hm | hm
    · exact hxs hm
    · rcases List.mem_cons.mp hm with hc | hm
      · exact absurd hc (by decide)
      · exact hy hm
  have hsl : splitLastChar '/' ((a ++ '/' :: x) ++ ';' :: y)
      = some (a, x ++ ';' :: y) := by
    rw [List.append_assoc, List.cons_append]
    exact splitLastChar_append a hnb
  rw [splitparams, hsl]
  dsimp only
  rw [splitChar_append y hxsemi]

/-- `splitparams` of a slash-free path followed by params. -/
theorem splitparams_eq_noslash {x y : Str} (hxs : '/' ∉ x) (hxsemi : ';' ∉ x)
    (hy : '/' ∉ y) :
    splitparams (x ++ ';' :: y) = (x, y) := by
  have hnm : '/' ∉ x ++ ';' :: y := by
    intro hm
    rcases List.mem_append.mp hm with hm | hm
    · exact hxs hm
    · rcases List.mem_cons.mp hm with hc | hm
      · exact absurd hc (by decide)
      · exact hy hm
  rw [splitparams, splitLastChar_not_mem hnm]
  dsimp only
  rw [splitChar_append y hxsemi]

/-- `splitparams` finds no params when nothing follows the last slash but
semicolon-free text. -/
theorem splitparams_eq_nosemi {a x : Str} (hxs : '/' ∉ x) (hxsemi : ';' ∉ x) :
    splitparams (a ++ '/' :: x) = (a ++ '/' :: x, []) := by
  have hsl : splitLastChar '/' (a ++ '/' :: x) = some (a, x) :=
    splitLastChar_append a hxs
  rw [splitparams, hsl]
  dsimp only
  rw [splitChar_not_mem hxsemi]

/-- Re-running the params gate of `urlparse` on the path that `urlunparse`
reassembles (after the empty path was defaulted to `/`) recovers exactly the
same path and params. -/
theorem params_regate (sch W pa pr : Str)
    (hQ : (if sch ∈ usesParams ∧ ';' ∈ W then splitparams W else (W, []))
      = (pa, pr)) :
    (if sch ∈ usesParams ∧
        ';' ∈ (if pr ≠ [] then (if pa = [] then ['/'] else pa) ++ ';' :: pr
          else (if pa = [] then ['/'] else pa))
      then splitparams (if pr ≠ [] then (if pa = [] then ['/'] else pa) ++ ';' :: pr
          else (if pa = [] then ['/'] else pa))
      else ((if pr ≠ [] then (if pa = [] then ['/'] else pa) ++ ';' :: pr
          else (if pa = [] then ['/'] else pa)), []))
      = ((if pa = [] then ['/'] else pa), pr) := by
  by_cases hg : sch ∈ usesParams ∧ ';' ∈ W
  · rw [if_pos hg] at hQ
    rw [splitparams] at hQ
    cases hsl : splitLastChar '/' W with
    | some p =>
      rcases p with ⟨a, b⟩
      obtain ⟨hWdec, hbs⟩ := splitLastChar_eq_some hsl
      rw [hsl] at hQ
      dsimp only at hQ
      cases hsc : splitChar ';' b with
      | some q =>
        rcases q with ⟨x, y⟩
        obtain ⟨hbdec, hxsemi⟩ := splitChar_eq_some hsc
        rw [hsc] at hQ
        dsimp only at hQ
        obtain ⟨h1, h2⟩ := Prod.mk.injEq _ _ _ _ ▸ hQ
        subst h1
        subst h2
        have hxs : '/' ∉ x := fun hm =>
          hbs (by rw [hbdec]; exact List.mem_append.mpr (Or.inl hm))
        have hys : '/' ∉ y := by
          intro hm
          apply hbs
          rw [hbdec]
          exact List.mem_append.mpr (Or.inr (List.mem_cons.mpr (Or.inr hm)))
        have hne : a ++ '/' :: x ≠ [] := by simp
        rw [if_neg hne]
        by_cases hy : y = []
        · subst hy
          rw [if_neg (not_not_intro rfl)]
          by_cases hsm : sch ∈ usesParams ∧ ';' ∈ a ++ '/' :: x
          · rw [if_pos hsm]
            exact splitparams_eq_nosemi hxs hxsemi
          · rw [if_neg hsm]
        · rw [if_pos hy]
          have hmem : ';' ∈ (a ++ '/' :: x) ++ ';' :: y :=
            List.mem_append.mpr (Or.inr (List.mem_cons_self _ _))
          rw [if_pos ⟨hg.1, hmem⟩]
          exact splitparams_eq_slash hxs hxsemi hys
      | none =>
        have hbsemi : ';' ∉ b := splitChar_eq_none hsc
        rw [hsc] at hQ
        dsimp only at hQ
        obtain ⟨h1, h2⟩ := Prod.mk.injEq _ _ _ _ ▸ hQ
        subst h1
        subst h2
        have hWne : W ≠ [] := by rw [hWdec]; simp
        rw [if_neg hWne, if_neg (not_not_intro rfl)]
        by_cases hsm : sch ∈ usesParams ∧ ';' ∈ W
        · rw [if_pos hsm, hWdec]
          exact splitparams_eq_nosemi hbs hbsemi
        · rw [if_neg hsm]
    | none =>
      have hns : '/' ∉ W := splitLastChar_eq_none hsl
      rw [hsl] at hQ
      dsimp only at hQ
      cases hsc : splitChar ';' W with
      | some q =>
        rcases q with ⟨x, y⟩
        obtain ⟨hWdec, hxsemi⟩ := splitChar_eq_some hsc
        rw [hsc] at hQ
        dsimp only at hQ
        obtain ⟨h1, h2⟩ := Prod.mk.injEq _ _ _ _ ▸ hQ
        subst h1
        subst h2
        have hxs : '/' ∉ x := fun hm =>
          hns (by rw [hWdec]; exact List.mem_append.mpr (Or.inl hm))
        have hys : '/' ∉ y := by
          intro hm
          apply hns
          rw [hWdec]
          exact List.mem_append.mpr (Or.inr (List.mem_cons.mpr (Or.inr hm)))
        by_cases hx : x = []
        · subst hx
          rw [if_pos rfl]
          by_cases hy : y = []
          · subst hy
            rw [if_neg (not_not_intro rfl)]
            have hno : ¬(sch ∈ usesParams ∧ ';' ∈ (['/'] : Str)) := fun hc =>
              absurd hc.2 (by decide)
            rw [if_neg hno]
          · rw [if_pos hy]
            have hmem : ';' ∈ (['/'] : Str) ++ ';' :: y :=
              List.mem_append.mpr (Or.inr (List.mem_cons_self _ _))
            rw [if_pos ⟨hg.1, hmem⟩]
            exact splitparams_eq_slash (a := []) (x := []) (by decide) (by decide) hys
        · rw [if_neg hx]
          by_cases hy : y = []
          · subst hy
            rw [if_neg (not_not_intro rfl)]
            have hno : ¬(sch ∈ usesParams ∧ ';' ∈ x) := fun hc => hxsemi hc.2
            rw [if_neg hno]
          · rw [if_pos hy]
            have hmem : ';' ∈ x ++ ';' :: y :=
              List.mem_append.mpr (Or.inr (List.mem_cons_self _ _))
            rw [if_pos ⟨hg.1, hmem⟩]
            exact splitparams_eq_noslash hxs hxsemi hys
      | none =>
        exact absurd hg.2 (splitChar_eq_none hsc)
  · rw [if_neg hg] at hQ
    obtain ⟨h1, h2⟩ := Prod.mk.injEq _ _ _ _ ▸ hQ
    subst h1
    subst h2
    rw [if_neg (not_not_intro rfl)]
    have hno : ¬(sch ∈ usesParams ∧ ';' ∈ (if W = [] then ['/'] else W)) := by
      intro hc
      apply hg
      refine ⟨hc.1, ?_⟩
      by_cases hWz : W = []
      · rw [if_pos hWz] at hc
        exact absurd hc.2 (by decide)
      · rw [if_neg hWz] at hc
        exact hc.2
    rw [if_neg hno]

/-- When a netloc-using scheme forces the `//` emission, prepending a `/` to
a relative reassembled path does not change the unsplit result. -/
theorem urlunsplit_prepend_slash (sch RP qy : Str) (hs : sch ≠ [])
    (hm : sch ∈ usesNetloc) (hne : RP ≠ []) (hh : RP.head? ≠ some '/') :
    urlunsplit sch [] ('/' :: RP) qy [] = urlunsplit sch [] RP qy [] := by
  have h2 : RP.take 2 ≠ ['/', '/'] := fun e => hh (take2_head e)
  have h2' : ('/' :: RP).take 2 ≠ ['/', '/'] := by
    intro e
    rw [List.take_succ_cons] at e
    have e1 : RP.take 1 = ['/'] := (List.cons.injEq _ _ _ _ ▸ e).2
    apply hh
    cases RP with
    | nil => simp at e1
    | cons c cs =>
      rw [List.take_succ_cons, List.take_zero] at e1
      injection e1 with hc _
      rw [List.head?_cons, hc]
  have hc1 : (([] : Str) ≠ [] ∨
      (sch ≠ [] ∧ sch ∈ usesNetloc ∧ ('/' :: RP).take 2 ≠ ['/', '/'])) :=
    Or.inr ⟨hs, hm, h2'⟩
  have hc2 : (([] : Str) ≠ [] ∨
      (sch ≠ [] ∧ sch ∈ usesNetloc ∧ RP.take 2 ≠ ['/', '/'])) :=
    Or.inr ⟨hs, hm, h2⟩
  have hp1 : ¬(('/' :: RP) ≠ [] ∧ ('/' :: RP).head? ≠ some '/') := by simp
  have hp2 : (RP ≠ [] ∧ RP.head? ≠ some '/') := ⟨hne, hh⟩
  rw [urlunsplit_no_frag, urlunsplit_no_frag]
  simp only [if_pos hc1, if_pos hc2, if_neg hp1, if_pos hp2]

/-- Core of the amended idempotence property, phrased over the outputs of
the parsing pipeline on the original URL: unparsing the normalized
components, re-parsing, re-normalizing and unparsing again gives the same
string, provided the parse did not leave an empty netloc in front of a
`//`-initial path. -/
theorem roundtrip_core (u sch S2 nl0 V F W qy pa0 pr : Str)
    (h1 : splitScheme u = (sch, S2))
    (h2 : splitNetloc S2 = (nl0, V))
    (hF : (splitFragment V).1 = F)
    (hW : splitQuery F = (W, qy))
    (hQ : (if sch ∈ usesParams ∧ ';' ∈ W then splitparams W else (W, []))
      = (pa0, pr))
    (hside : ¬(nl0 = [] ∧ pa0.take 2 = ['/', '/'])) :
    urlunparse (normComp (urlparse (urlunparse
        ⟨sch, lowerStr nl0, (if pa0 = [] then ['/'] else pa0), pr, qy, []⟩)))
      = urlunparse
        ⟨sch, lowerStr nl0, (if pa0 = [] then ['/'] else pa0), pr, qy, []⟩ := by
  have hsch : sch = [] ∨ (validScheme sch = true ∧ lowerStr sch = sch) := by
    have h := splitScheme_fst_spec u
    rw [h1] at h
    exact h
  have hls : lowerStr sch = sch := by
    rcases hsch with h | h
    · rw [h]; rfl
    · exact h.2
  have hnl0 : ∀ x ∈ nl0, isNetlocDelim x = false := by
    have h := splitNetloc_fst_no_delim S2
    rw [h2] at h
    exact h
  have hFr := splitFragment_spec V
  rw [hF] at hFr
  have hFpre : ∃ t, F ++ t = V := by
    rcases hFr.2 with h | h
    · exact ⟨[], by rw [List.append_nil, h]⟩
    · exact ⟨'#' :: (splitFragment V).2, h.symm⟩
  have hWq := splitQuery_spec F
  rw [hW] at hWq
  dsimp only at hWq
  have hWnoq : '?' ∉ W := hWq.1
  have hWpreF : ∃ t, W ++ t = F := by
    rcases hWq.2 with ⟨h, _⟩ | h
    · exact ⟨[], by rw [List.append_nil, h]⟩
    · exact ⟨'?' :: qy, h.symm⟩
  have hWnohash : '#' ∉ W := by
    obtain ⟨t, ht⟩ := hWpreF
    intro hm
    apply hFr.1
    rw [← ht]
    exact List.mem_append.mpr (Or.inl hm)
  have hqy_hash : '#' ∉ qy := by
    rcases hWq.2 with ⟨_, h⟩ | h
    · rw [h]
      exact List.not_mem_nil _
    · intro hm
      apply hFr.1
      rw [h]
      exact List.mem_append.mpr (Or.inr (List.mem_cons.mpr (Or.inr hm)))
  have hdec : (pr = [] ∧ pa0 = W) ∨ pa0 ++ ';' :: pr = W := by
    by_cases hg : sch ∈ usesParams ∧ ';' ∈ W
    · rw [if_pos hg] at hQ
      have h := splitparams_decomp W
      rw [hQ] at h
      dsimp only at h
      exact h
    · rw [if_neg hg] at hQ
      obtain ⟨ha, hb⟩ := Prod.mk.injEq _ _ _ _ ▸ hQ
      exact Or.inl ⟨hb.symm, ha.symm⟩
  have hpa0_sub : ∀ x ∈ pa0, x ∈ W := by
    rcases hdec with ⟨_, h⟩ | h
    · intro x hx
      rwa [h] at hx
    · intro x hx
      rw [← h]
      exact List.mem_append.mpr (Or.inl hx)
  have hpr_sub : ∀ x ∈ pr, x ∈ W := by
    rcases hdec with ⟨h, _⟩ | h
    · intro x hx
      rw [h] at hx
      exact absurd hx (List.not_mem_nil x)
    · intro x hx
      rw [← h]
      exact List.mem_append.mpr (Or.inr (List.mem_cons.mpr (Or.inr hx)))
  have hpa0_preW : ∃ t, pa0 ++ t = W := by
    rcases hdec with ⟨_, h⟩ | h
    · exact ⟨[], by rw [List.append_nil, h]⟩
    · exact ⟨';' :: pr, h⟩
  have hpa0_preV : ∃ t, pa0 ++ t = V := by
    obtain ⟨t1, ha⟩ := hpa0_preW
    obtain ⟨t2, hb⟩ := hWpreF
    obtain ⟨t3, hc⟩ := hFpre
    refine ⟨t1 ++ (t2 ++ t3), ?_⟩
    rw [← List.append_assoc, ha, ← List.append_assoc, hb, hc]
  have hshape : pa0 = [] ∨ pa0.head? = some '/' ∨ (nl0 = [] ∧ V = S2) := by
    by_cases hb : S2.take 2 = ['/', '/']
    · have hcs := splitNetloc_cond_spec hb
      rw [h2] at hcs
      dsimp only at hcs
      rcases hcs.2 with hV0 | ⟨c, cs, hVc, hdel⟩
      · left
        obtain ⟨t, ht⟩ := hpa0_preV
        rw [hV0] at ht
        exact (List.append_eq_nil.mp ht).1
      · by_cases hp0 : pa0 = []
        · exact Or.inl hp0
        · right; left
          obtain ⟨t, ht⟩ := hpa0_preV
          rw [hVc] at ht
          cases hpa : pa0 with
          | nil => exact absurd hpa hp0
          | cons p ps =>
            rw [hpa, List.cons_append] at ht
            have hpc : p = c := (List.cons.injEq _ _ _ _ ▸ ht).1
            have hcor : c = '/' ∨ c = '?' ∨ c = '#' := by
              simpa [isNetlocDelim, or_assoc] using hdel
            have hcw : c ∈ W := by
              apply hpa0_sub
              rw [hpa, hpc]
              exact List.mem_cons_self _ _
            rcases hcor with hc' | hc' | hc'
            · rw [List.head?_cons, hpc, hc']
            · exact absurd (hc' ▸ hcw) hWnoq
            · exact absurd (hc' ▸ hcw) hWnohash
    · right; right
      have h := splitNetloc_other hb
      rw [h2] at h
      obtain ⟨ha, hb'⟩ := Prod.mk.injEq _ _ _ _ ▸ h
      exact ⟨ha, hb'⟩
  have g3 : (if pa0 = [] then ['/'] else pa0) ≠ [] := by
    by_cases h0 : pa0 = []
    · rw [if_pos h0]; decide
    · rw [if_neg h0]; exact h0
  have g4 : '#' ∉ (if pa0 = [] then ['/'] else pa0) := by
    by_cases h0 : pa0 = []
    · rw [if_pos h0]; decide
    · rw [if_neg h0]
      intro hm
      exact hWnohash (hpa0_sub _ hm)
  have g5 : '?' ∉ (if pa0 = [] then ['/'] else pa0) := by
    by_cases h0 : pa0 = []
    · rw [if_pos h0]; decide
    · rw [if_neg h0]
      intro hm
      exact hWnoq (hpa0_sub _ hm)
  have g6 : '#' ∉ pr := fun hm => hWnohash (hpr_sub _ hm)
  have g7 : '?' ∉ pr := fun hm => hWnoq (hpr_sub _ hm)
  have g9 : lowerStr nl0 ≠ [] →
      (if pa0 = [] then ['/'] else pa0).head? = some '/' := by
    intro h
    have hnl0ne : nl0 ≠ [] := fun e => h (by rw [e]; rfl)
    rcases hshape with h0 | h0 | h0
    · rw [if_pos h0]; rfl
    · have hp0 : pa0 ≠ [] := by
        intro e
        rw [e] at h0
        simp at h0
      rw [if_neg hp0]
      exact h0
    · exact absurd h0.1 hnl0ne
  have g10 : lowerStr nl0 = [] →
      (if pa0 = [] then ['/'] else pa0).take 2 ≠ ['/', '/'] := by
    intro h
    have hz : nl0 = [] := lowerStr_eq_nil.mp h
    have hp2 : pa0.take 2 ≠ ['/', '/'] := fun e => hside ⟨hz, e⟩
    by_cases h0 : pa0 = []
    · rw [if_pos h0]; decide
    · rw [if_neg h0]
      exact hp2
  have g11 : sch = [] → lowerStr nl0 = [] →
      splitScheme (if pa0 = [] then ['/'] else pa0)
        = ([], if pa0 = [] then ['/'] else pa0) := by
    intro h0 hz
    rcases hshape with hs0 | hs0 | hs0
    · rw [if_pos hs0]; decide
    · have hp0 : pa0 ≠ [] := by
        intro e
        rw [e] at hs0
        simp at hs0
      rw [if_neg hp0]
      exact splitScheme_headSlash hs0
    · by_cases hp0 : pa0 = []
      · rw [if_pos hp0]; decide
      · rw [if_neg hp0]
        have hfst : (splitScheme u).1 = [] := by
          rw [h1]
          exact h0
        have hsnd := splitScheme_fst_empty hfst
        rw [h1] at hsnd
        have hS2u : S2 = u := hsnd
        have hu : splitScheme u = ([], u) := by
          rw [h1, h0, ← hS2u]
        obtain ⟨t, ht⟩ := hpa0_preV
        rw [hs0.2, hS2u] at ht
        exact splitScheme_prefix hu ht
  have g12 := params_regate sch W pa0 pr hQ
  rcases parse_of_unparse sch (lowerStr nl0) (if pa0 = [] then ['/'] else pa0) pr qy
      (if pr ≠ [] then (if pa0 = [] then ['/'] else pa0) ++ ';' :: pr
        else (if pa0 = [] then ['/'] else pa0)) rfl hsch
      (lowerStr_no_delim hnl0) g3 g4 g5 g6 g7 hqy_hash g9 g10 g11 g12
    with heq | ⟨hnlz, heq, hhead, hsne, hmem⟩
  · rw [heq]
    have hfix : normComp
        ⟨sch, lowerStr nl0, (if pa0 = [] then ['/'] else pa0), pr, qy, []⟩
        = ⟨sch, lowerStr nl0, (if pa0 = [] then ['/'] else pa0), pr, qy, []⟩ := by
      unfold normComp
      dsimp only
      rw [hls, lowerStr_idem, if_neg g3]
    rw [hfix]
  · rw [heq]
    have hfix : normComp
        ⟨sch, lowerStr nl0, '/' :: (if pa0 = [] then ['/'] else pa0), pr, qy, []⟩
        = ⟨sch, lowerStr nl0, '/' :: (if pa0 = [] then ['/'] else pa0), pr, qy, []⟩ := by
      unfold normComp
      dsimp only
      rw [hls, lowerStr_idem, if_neg (List.cons_ne_nil '/' _)]
    rw [hfix, hnlz]
    rw [urlunparse, urlunparse]
    dsimp only
    have hRP' : (if pr ≠ [] then ('/' :: (if pa0 = [] then ['/'] else pa0)) ++ ';' :: pr
        else '/' :: (if pa0 = [] then ['/'] else pa0))
        = '/' :: (if pr ≠ [] then (if pa0 = [] then ['/'] else pa0) ++ ';' :: pr
          else (if pa0 = [] then ['/'] else pa0)) := by
      by_cases hpr : pr = []
      · simp [hpr]
      · simp [hpr]
    rw [hRP']
    have hRPne : (if pr ≠ [] then (if pa0 = [] then ['/'] else pa0) ++ ';' :: pr
        else (if pa0 = [] then ['/'] else pa0)) ≠ [] := by
      by_cases hpr : pr = []
      · rw [if_neg (not_not_intro hpr)]
        exact g3
      · rw [if_pos hpr]
        intro e
        exact g3 (List.append_eq_nil.mp e).1
    have hRPhead : (if pr ≠ [] then (if pa0 = [] then ['/'] else pa0) ++ ';' :: pr
        else (if pa0 = [] then ['/'] else pa0)).head? ≠ some '/' := by
      by_cases hpr : pr = []
      · rw [if_neg (not_not_intro hpr)]
        exact hhead
      · rw [if_pos hpr, head_append_left _ g3]
        exact hhead
    exact urlunsplit_prepend_slash sch _ qy hsne hmem hRPne hRPhead

/-- C8 (amended): `normalize_url` (parse, lowercase scheme and netloc,
default an empty path to `/`, drop the fragment, unparse) is idempotent on
every URL whose parse does not produce an empty netloc together with a path
beginning with `//`; applying it a second time returns the first result
unchanged. (The excluded corner is genuinely non-idempotent, see the
counterexample `normalizeUrl_not_idempotent`.) -/
theorem normalizeUrl_idempotent (u : Str)
    (h : ¬((urlparse u).netloc = [] ∧ (urlparse u).path.take 2 = ['/', '/'])) :
    normalizeUrl (normalizeUrl u) = normalizeUrl u := by
  simp only [normalizeUrl]
  have hls : lowerStr (splitScheme u).1 = (splitScheme u).1 := by
    rcases splitScheme_fst_spec u with h' | h'
    · rw [h']; rfl
    · exact h'.2
  have hN : normComp (urlparse u)
      = ⟨(splitScheme u).1,
          lowerStr (splitNetloc (splitScheme u).2).1,
          (if (urlparse u).path = [] then ['/'] else (urlparse u).path),
          (urlparse u).params, (urlparse u).query, []⟩ := by
    show (⟨lowerStr (splitScheme u).1,
        lowerStr (splitNetloc (splitScheme u).2).1,
        (if (urlparse u).path = [] then ['/'] else (urlparse u).path),
        (urlparse u).params, (urlparse u).query, []⟩ : URLComponents) = _
    rw [hls]
  rw [hN]
  exact roundtrip_core u (splitScheme u).1 (splitScheme u).2
    (splitNetloc (splitScheme u).2).1 (splitNetloc (splitScheme u).2).2
    (splitFragment (splitNetloc (splitScheme u).2).2).1
    (splitQuery (splitFragment (splitNetloc (splitScheme u).2).2).1).1
    (urlparse u).query (urlparse u).path (urlparse u).params
    rfl rfl rfl rfl rfl h

/-- The amended C8 established at a concrete URL away from the excluded
corner. -/
theorem normalizeUrl_idempotent_witness :
    ¬((urlparse "http://Example.COM/A/b;p?q=1#f".toList).netloc = [] ∧
        (urlparse "http://Example.COM/A/b;p?q=1#f".toList).path.take 2
          = ['/', '/']) ∧
      normalizeUrl (normalizeUrl "http://Example.COM/A/b;p?q=1#f".toList)
        = normalizeUrl "http://Example.COM/A/b;p?q=1#f".toList :=
  ⟨by decide, normalizeUrl_idempotent "http://Example.COM/A/b;p?q=1#f".toList
    (by decide)⟩

end LegalSpider
